import Mathlib

/-!
Verification of the Simple_Recommendation_System repository.

This file gives a shallow embedding, in Lean 4, of the recommendation engine:
the similarity functions (`src/utils.py`), the collaborative-filtering engine
(`src/services/collaborative_filtering.py`), the content-based engine
(`src/services/content_based.py`) and the score-merging step of the
coordinator (`src/services/recommendation_service.py`), together with theorems
settling the spec claims about them.

Modelling conventions:
* Python `float` values are idealised as exact rationals `ℚ`; quantities that
  genuinely involve a square root (cosine similarity, Pearson correlation) are
  valued in `ℝ`.
* Python dicts are insertion-ordered association lists `List (K × V)`;
  `alSet` is `d[k] = v` (update the first binding in place, else append),
  `alGet?` is `d.get(k)`, `alGetD` is `d.get(k, default)`.
* A `float` result that can be NaN is modelled as `Option`, with `none`
  standing for NaN.
* Python `sorted(xs, key=..., reverse=True)` is a stable insertion sort.
* Python set iteration order is implementation defined; it is modelled as
  first-seen order (`firstDedup`).  No theorem below depends on that order.
* The collaborative engine's pluggable `similarity_func` is a parameter
  `simFunc : List ℚ → List ℚ → Option ℚ` of the engine state, mirroring the
  `self.similarity_func` field chosen at construction; the claims proved about
  the engine hold for every similarity function, hence for both configured
  metrics.
-/

set_option maxHeartbeats 1000000

namespace RecSys

/-! ## Association lists modelling Python dicts -/

/-- Python `d.get(k)`: value of the first binding of `k`, if any. -/
def alGet? {K V : Type} [DecidableEq K] : List (K × V) → K → Option V
  | [], _ => none
  | (k1, v1) :: rest, k => if k1 = k then some v1 else alGet? rest k

/-- Python `d.get(k, dflt)`. -/
def alGetD {K V : Type} [DecidableEq K] (l : List (K × V)) (k : K) (dflt : V) : V :=
  (alGet? l k).getD dflt

/-- Python `d[k] = v`: update the first binding of `k` in place, else append. -/
def alSet {K V : Type} [DecidableEq K] : List (K × V) → K → V → List (K × V)
  | [], k, v => [(k, v)]
  | (k1, v1) :: rest, k, v =>
    if k1 = k then (k, v) :: rest else (k1, v1) :: alSet rest k v

/-- Python `d.keys()` (in insertion order). -/
def alKeys {K V : Type} (l : List (K × V)) : List K := l.map Prod.fst

/-- Python `d[k] = d.get(k, 0) + v`, the `defaultdict(float)` accumulation. -/
def alAdd {K : Type} [DecidableEq K] (l : List (K × ℚ)) (k : K) (v : ℚ) : List (K × ℚ) :=
  alSet l k (alGetD l k 0 + v)

/-! ## Python `sorted`, slices, sets and string helpers -/

/-- Stable insertion used by `sortBy`: `x` goes before the first element `y`
with `le x y`. -/
def insertBy {α : Type} (le : α → α → Bool) (x : α) : List α → List α
  | [] => [x]
  | y :: ys => if le x y then x :: y :: ys else y :: insertBy le x ys

/-- Stable insertion sort; with `le x y := key y ≤ key x` it models Python
`sorted(xs, key=key, reverse=True)` (descending, stable). -/
def sortBy {α : Type} (le : α → α → Bool) : List α → List α
  | [] => []
  | x :: xs => insertBy le x (sortBy le xs)

/-- Python slice `l[:n]`, including the negative-index semantics
(`l[:-k]` drops the last `k` elements). -/
def pyTake {α : Type} (n : ℤ) (l : List α) : List α :=
  if 0 ≤ n then l.take n.toNat else l.take (l.length - min n.natAbs l.length)

/-- Deduplication keeping the first occurrence of each element, modelling the
iteration order of a Python set filled in a known order. -/
def firstDedup {α : Type} [DecidableEq α] : List α → List α
  | [] => []
  | x :: xs => x :: (firstDedup xs).filter (fun y => y ≠ x)

/-- Python `s.startswith(pat)` on character lists (`pat` first). -/
def startsWithList {α : Type} [DecidableEq α] : List α → List α → Bool
  | [], _ => true
  | _ :: _, [] => false
  | p :: ps, c :: cs => p = c && startsWithList ps cs

/-- Python `pat in s` (substring containment) on character lists. -/
def hasSubList {α : Type} [DecidableEq α] (pat : List α) : List α → Bool
  | [] => pat.isEmpty
  | c :: cs => startsWithList pat (c :: cs) || hasSubList pat cs

/-- Worker for `removeSubList`; the fuel argument starts at the length of
the list and strictly dominates it throughout, so the `0` case is never hit
from `removeSubList`. -/
def removeSubAux {α : Type} [DecidableEq α] (pat : List α) : ℕ → List α → List α
  | 0, _ => []
  | _, [] => []
  | fuel + 1, c :: cs =>
    if pat ≠ [] ∧ startsWithList pat (c :: cs) = true then
      removeSubAux pat fuel (cs.drop (pat.length - 1))
    else
      c :: removeSubAux pat fuel cs

/-- Python `s.replace(pat, "")` on character lists: removes every
non-overlapping occurrence of `pat`, scanning left to right. -/
def removeSubList {α : Type} [DecidableEq α] (pat : List α) (l : List α) : List α :=
  removeSubAux pat l.length l

/-- Python `pat in s` on strings. -/
def pyHasSub (pat s : String) : Bool := hasSubList pat.data s.data

/-- Python `s.replace(pat, "")` on strings. -/
def pyRemoveSub (pat s : String) : String := String.mk (removeSubList pat.data s.data)

/-! ## Similarity functions (`src/utils.py`) -/

/-- Dot product of two numeric vectors (`np.dot`; callers pass equal-length
vectors, extra trailing entries of either argument are ignored). -/
def dotList : List ℚ → List ℚ → ℚ
  | a :: as2, b :: bs => a * b + dotList as2 bs
  | _, _ => 0

/-- Sum of squares of a vector; `np.linalg.norm v = Real.sqrt (sumSq v)`. -/
def sumSq (v : List ℚ) : ℚ := dotList v v

/-- Euclidean norm of a vector, `np.linalg.norm`. -/
noncomputable def vecNorm (v : List ℚ) : ℝ := Real.sqrt ((sumSq v : ℚ) : ℝ)

open Classical in
/-- Embeds `utils.cosine_similarity`: returns `0.0` when either norm is zero,
otherwise `dot / (norm1 * norm2)`.  The function is total: no exception and no
NaN is possible. -/
noncomputable def cosine_similarity (v1 v2 : List ℚ) : ℝ :=
  if vecNorm v1 = 0 ∨ vecNorm v2 = 0 then 0
  else ((dotList v1 v2 : ℚ) : ℝ) / (vecNorm v1 * vecNorm v2)

/-- Positions of a vector pair where neither coordinate is zero: the rows kept
by the numpy mask `~((v1 == 0) | (v2 == 0))`. -/
def nonzeroPairs (v1 v2 : List ℚ) : List (ℚ × ℚ) :=
  (v1.zip v2).filter (fun p => !(decide (p.1 = 0) || decide (p.2 = 0)))

/-- Pearson correlation coefficient of an already-filtered list of sample
pairs, as computed by `np.corrcoef(x, y)[0, 1]`; `none` models the NaN
produced when either sample has zero variance. -/
noncomputable def corrcoefPairs (ps : List (ℚ × ℚ)) : Option ℝ :=
  let n : ℚ := ps.length
  let mx := (ps.map Prod.fst).sum / n
  let my := (ps.map Prod.snd).sum / n
  let sxx := (ps.map (fun p => (p.1 - mx) ^ 2)).sum
  let syy := (ps.map (fun p => (p.2 - my) ^ 2)).sum
  let sxy := (ps.map (fun p => (p.1 - mx) * (p.2 - my))).sum
  if sxx = 0 ∨ syy = 0 then none
  else some (((sxy : ℚ) : ℝ) / (Real.sqrt ((sxx : ℚ) : ℝ) * Real.sqrt ((syy : ℚ) : ℝ)))

/-- Embeds `utils.pearson_correlation`: guards for short vectors, filters out
positions where either vector is zero, then correlates the remaining pairs.
`none` models a NaN result. -/
noncomputable def pearson_correlation (v1 v2 : List ℚ) : Option ℝ :=
  if v1.length < 2 ∨ v2.length < 2 then some 0
  else if (nonzeroPairs v1 v2).length < 2 then some 0
  else corrcoefPairs (nonzeroPairs v1 v2)

/-! ## Domain models (`src/models`) -/

/-- Embeds `models.rating.Rating` (id and timestamp are irrelevant to the
engine and omitted). -/
structure Rating where
  user_id : ℤ
  item_id : ℤ
  value : ℚ
deriving DecidableEq

/-- Embeds `models.item.Item` (the engine uses id, categories and features). -/
structure Item where
  name : String
  id : ℤ
  categories : List String
  features : List (String × ℚ)
deriving DecidableEq

/-- Embeds `models.user.User` (the engine uses id and preferences). -/
structure User where
  username : String
  id : ℤ
  preferences : List (String × ℚ)
  history : List ℤ
deriving DecidableEq

/-! ## Collaborative filtering engine (`src/services/collaborative_filtering.py`) -/

/-- State of a `CollaborativeFiltering` instance.  `simFunc` is the
`self.similarity_func` chosen at construction (cosine or pearson in the
source); it takes the two dense vectors and returns `none` for NaN. -/
structure CFState where
  method : String
  simFunc : List ℚ → List ℚ → Option ℚ
  user_item_ratings : List (ℤ × List (ℤ × ℚ))
  item_user_ratings : List (ℤ × List (ℤ × ℚ))
  user_means : List (ℤ × ℚ)
  item_means : List (ℤ × ℚ)
  user_similarity : List (ℤ × List (ℤ × ℚ))
  item_similarity : List (ℤ × List (ℤ × ℚ))

/-- A freshly constructed `CollaborativeFiltering(method, metric)` instance. -/
def cfInit (method : String) (simFunc : List ℚ → List ℚ → Option ℚ) : CFState :=
  ⟨method, simFunc, [], [], [], [], [], []⟩

/-- The user→item→rating matrix built by the first loop of `train`. -/
def buildUserItem (ratings : List Rating) : List (ℤ × List (ℤ × ℚ)) :=
  ratings.foldl
    (fun acc r => alSet acc r.user_id (alSet (alGetD acc r.user_id []) r.item_id r.value))
    []

/-- The item→user→rating matrix built by the first loop of `train`. -/
def buildItemUser (ratings : List Rating) : List (ℤ × List (ℤ × ℚ)) :=
  ratings.foldl
    (fun acc r => alSet acc r.item_id (alSet (alGetD acc r.item_id []) r.user_id r.value))
    []

/-- Mean rating of each entity (`0.0` for an empty row), as in the mean
loops of `train`. -/
def meansOf (m : List (ℤ × List (ℤ × ℚ))) : List (ℤ × ℚ) :=
  m.map (fun p => (p.1, if p.2 ≠ [] then (p.2.map Prod.snd).sum / (p.2.length : ℚ) else 0))

/-- Union of the inner keys of a rating matrix: `all_items` in
`_compute_user_similarities` (Python builds a set in this visit order;
set order is modelled as first-seen order). -/
def innerKeyUnion (m : List (ℤ × List (ℤ × ℚ))) : List ℤ :=
  firstDedup (m.map (fun p => alKeys p.2)).flatten

/-- Dense vector of one entity over the given axis, `0.0` where unrated. -/
def denseVector (m : List (ℤ × List (ℤ × ℚ))) (axis : List ℤ) (k : ℤ) : List ℚ :=
  axis.map (fun j => alGetD (alGetD m k []) j 0)

/-- Retention test applied to one similarity value:
`not np.isnan(similarity) and similarity > 0.1`. -/
def simEntry (simFunc : List ℚ → List ℚ → Option ℚ) (v1 v2 : List ℚ) : Option ℚ :=
  match simFunc v1 v2 with
  | none => none
  | some v => if 1/10 < v then some v else none

/-- Embeds `_compute_user_similarities` (and, applied to the transposed
matrix, `_compute_item_similarities`): every ordered pair of distinct
entities is scored and retained when not NaN and above `0.1`. -/
def computeSimilarities (simFunc : List ℚ → List ℚ → Option ℚ)
    (m : List (ℤ × List (ℤ × ℚ))) : List (ℤ × List (ℤ × ℚ)) :=
  (alKeys m).map (fun k1 =>
    (k1, ((alKeys m).filter (fun k2 => decide (k2 ≠ k1))).filterMap (fun k2 =>
      (simEntry simFunc (denseVector m (innerKeyUnion m) k1)
        (denseVector m (innerKeyUnion m) k2)).map (fun v => (k2, v)))))

/-- Embeds `CollaborativeFiltering.train`: rebuild both matrices and both
mean tables from scratch, then recompute the similarity table selected by
`method` (the other table is left untouched). -/
def cfTrain (s : CFState) (ratings : List Rating) : CFState :=
  let uir := buildUserItem ratings
  let iur := buildItemUser ratings
  let s1 : CFState :=
    { s with
      user_item_ratings := uir
      item_user_ratings := iur
      user_means := meansOf uir
      item_means := meansOf iur }
  if s.method = "user-based" then
    { s1 with user_similarity := computeSimilarities s.simFunc uir }
  else
    { s1 with item_similarity := computeSimilarities s.simFunc iur }

/-- Clamp of a predicted rating, `max(0.5, min(5.0, prediction))`. -/
def clampRating (p : ℚ) : ℚ := max (1/2) (min 5 p)

/-- Descending-by-score comparison handed to the stable sorts below,
modelling `sort(key=lambda x: x[1], reverse=True)`. -/
def byScoreDesc (a b : ℤ × ℚ) : Bool := decide (b.2 ≤ a.2)

/-- Inner loop of `_user_based_recommendations` for one similar user `su`:
every item `su` rated that the target has not rated accumulates
`similarity × (rating − other_user_mean)` and `|similarity|`. -/
def ubStep (s : CFState) (rated : List ℤ) (acc : List (ℤ × (ℚ × ℚ)))
    (su : ℤ × ℚ) : List (ℤ × (ℚ × ℚ)) :=
  (alGetD s.user_item_ratings su.1 []).foldl
    (fun acc2 (ir : ℤ × ℚ) =>
      if ir.1 ∈ rated then acc2
      else
        alSet acc2 ir.1
          ((alGetD acc2 ir.1 (0, 0)).1 + su.2 * (ir.2 - alGetD s.user_means su.1 0),
           (alGetD acc2 ir.1 (0, 0)).2 + |su.2|))
    acc

/-- The `predictions` dict of `_user_based_recommendations`: similar users in
descending similarity order, each folded through `ubStep`. -/
def ubPredictions (s : CFState) (rated : List ℤ) (sims : List (ℤ × ℚ)) :
    List (ℤ × (ℚ × ℚ)) :=
  (sortBy byScoreDesc sims).foldl (ubStep s rated) []

/-- Embeds `_user_based_recommendations`. -/
def cfUserBased (s : CFState) (uid : ℤ) (limit : ℤ) : List (ℤ × ℚ) :=
  let user_ratings := alGetD s.user_item_ratings uid []
  if user_ratings = [] then []
  else
    let similar_users := alGetD s.user_similarity uid []
    if similar_users = [] then []
    else
      let user_mean := alGetD s.user_means uid 0
      let preds := ubPredictions s (alKeys user_ratings) similar_users
      let final := preds.filterMap (fun e =>
        if 0 < e.2.2 then some (e.1, clampRating (user_mean + e.2.1 / e.2.2)) else none)
      pyTake limit (sortBy byScoreDesc final)

/-- Embeds `_item_based_recommendations`. -/
def cfItemBased (s : CFState) (uid : ℤ) (limit : ℤ) : List (ℤ × ℚ) :=
  let user_ratings := alGetD s.user_item_ratings uid []
  if user_ratings = [] then []
  else
    let predict_items :=
      (alKeys s.item_user_ratings).filter (fun i => decide (i ∉ alKeys user_ratings))
    let preds := predict_items.filterMap (fun i =>
      let similar_items := alGetD s.item_similarity i []
      if similar_items = [] then none
      else
        let acc := similar_items.foldl
          (fun (a : ℚ × ℚ) (p : ℤ × ℚ) =>
            match alGet? user_ratings p.1 with
            | some r => (a.1 + p.2 * r, a.2 + |p.2|)
            | none => a)
          (0, 0)
        if 0 < acc.2 then some (i, clampRating (acc.1 / acc.2)) else none)
    pyTake limit (sortBy byScoreDesc preds)

/-- Embeds `CollaborativeFiltering.recommend_for_user`. -/
def cfRecommend (s : CFState) (uid : ℤ) (limit : ℤ) : List (ℤ × ℚ) :=
  if s.method = "user-based" then cfUserBased s uid limit else cfItemBased s uid limit

/-! ## Content-based engine (`src/services/content_based.py`) -/

/-- Training input of the content engine: the `{'items', 'users', 'ratings'}`
dictionary. -/
structure CBData where
  items : List Item
  users : List User
  ratings : List Rating
deriving DecidableEq

/-- State of a `ContentBased` instance. -/
structure CBState where
  users : List User
  user_profiles : List (ℤ × List (String × ℚ))
  item_features : List (ℤ × List (String × ℚ))
  feature_list : List String
  user_item_ratings : List (ℤ × List (ℤ × ℚ))
deriving DecidableEq

/-- A freshly constructed `ContentBased()` instance. -/
def cbInit : CBState := ⟨[], [], [], [], []⟩

/-- The synthetic feature name `f"category_{category}"`. -/
def catFeature (c : String) : String := "category_" ++ c

/-- Python `sorted(list(s))` on a set of strings: ascending lexicographic. -/
def sortedStrings (l : List String) : List String :=
  sortBy (fun a b => decide (a ≤ b)) l

/-- The feature vocabulary: sorted direct feature names followed by sorted
category features, deduplicated. -/
def cbFeatureList (items : List Item) : List String :=
  let featureSet := firstDedup (items.map (fun it => alKeys it.features)).flatten
  let categorySet := firstDedup (items.map (fun it => it.categories.map catFeature)).flatten
  sortedStrings featureSet ++ sortedStrings categorySet

/-- Item feature vectors: direct features with their values, then category
features at binary `1.0`. -/
def cbItemFeatures (items : List Item) : List (ℤ × List (String × ℚ)) :=
  items.foldl
    (fun acc it =>
      let fv := it.features.foldl (fun m p => alSet m p.1 p.2) []
      let fv2 := it.categories.foldl (fun m c => alSet m (catFeature c) 1) fv
      alSet acc it.id fv2)
    []

/-- Explicit-preference seeding of one user profile inside
`_build_user_profiles`: the first user object carrying the id contributes a
`category_`-prefixed entry per preference, when its preference dict is
non-empty. -/
def cbSeedProfile (users : List User) (uid : ℤ) : List (String × ℚ) :=
  match users.find? (fun u => decide (u.id = uid)) with
  | some u =>
    if u.preferences ≠ [] then
      u.preferences.foldl (fun m p => alSet m (catFeature p.1) p.2) []
    else []
  | none => []

/-- Rating-weighted accumulation of one user profile inside
`_build_user_profiles`: items whose normalized weight `(rating - 1) / 4` is
not positive are skipped entirely; the first component carries the running
`total_rating_weight`. -/
def cbProfileAccum (itemFeats : List (ℤ × List (String × ℚ)))
    (ratings : List (ℤ × ℚ)) (seeded : List (String × ℚ)) :
    ℚ × List (String × ℚ) :=
  ratings.foldl
    (fun (acc : ℚ × List (String × ℚ)) (p : ℤ × ℚ) =>
      if (p.2 - 1) / 4 ≤ 0 then acc
      else
        (acc.1 + (p.2 - 1) / 4,
         (alGetD itemFeats p.1 []).foldl
           (fun m q => alAdd m q.1 (q.2 * ((p.2 - 1) / 4))) acc.2))
    (0, seeded)

/-- Profile of one user inside `_build_user_profiles`: seed from the user
object's explicit category preferences if any, accumulate
`feature_value × normalized_weight` over positively rated items, then divide
every entry by the total normalized weight when it is positive. -/
def cbBuildProfile (users : List User) (itemFeats : List (ℤ × List (String × ℚ)))
    (uid : ℤ) (ratings : List (ℤ × ℚ)) : List (String × ℚ) :=
  if 0 < (cbProfileAccum itemFeats ratings (cbSeedProfile users uid)).1 then
    (cbProfileAccum itemFeats ratings (cbSeedProfile users uid)).2.map
      (fun p => (p.1, p.2 / (cbProfileAccum itemFeats ratings (cbSeedProfile users uid)).1))
  else (cbProfileAccum itemFeats ratings (cbSeedProfile users uid)).2

/-- Embeds `_build_user_profiles`: every user with a non-empty rating row
gets a profile entry (possibly the empty mapping). -/
def cbBuildUserProfiles (users : List User) (itemFeats : List (ℤ × List (String × ℚ)))
    (uir : List (ℤ × List (ℤ × ℚ))) : List (ℤ × List (String × ℚ)) :=
  uir.foldl
    (fun acc p =>
      if p.2 = [] then acc
      else alSet acc p.1 (cbBuildProfile users itemFeats p.1 p.2))
    []

/-- Embeds `ContentBased.train`: reset and rebuild vocabulary, item vectors,
the rating map and user profiles from the given data. -/
def cbTrain (_s : CBState) (d : CBData) : CBState :=
  let itf := cbItemFeatures d.items
  let uir := buildUserItem d.ratings
  { users := d.users
    user_profiles := cbBuildUserProfiles d.users itf uir
    item_features := itf
    feature_list := cbFeatureList d.items
    user_item_ratings := uir }

open Classical in
/-- Descending-by-score comparison on real-valued scores. -/
noncomputable def byScoreDescR (a b : ℤ × ℝ) : Bool := decide (b.2 ≤ a.2)

/-- Embeds `ContentBased.recommend_for_user`: empty profile gives an empty
list; otherwise every unrated item is scored `1.0 + 4.0 × cosine` between the
profile vector and its feature vector, sorted descending and truncated. -/
noncomputable def cbRecommend (s : CBState) (uid : ℤ) (limit : ℤ) : List (ℤ × ℝ) :=
  let user_profile := alGetD s.user_profiles uid []
  if user_profile = [] then []
  else
    let rated := alKeys (alGetD s.user_item_ratings uid [])
    let userVec := s.feature_list.map (fun f => alGetD user_profile f 0)
    let sims := s.item_features.filterMap (fun p =>
      if p.1 ∈ rated then none
      else
        some (p.1,
          1 + 4 * cosine_similarity userVec (s.feature_list.map (fun f => alGetD p.2 f 0))))
    pyTake limit (sortBy byScoreDescR sims)

/-- One entry of the `top_features` list returned by
`explain_recommendation`. -/
structure ExplanationEntry where
  feature : String
  display_name : String
  user_preference : ℚ
  item_value : ℚ
  contribution : ℚ
deriving DecidableEq

/-- The `common_features` set of `explain_recommendation`: features present
in both the user profile and the item features (in profile order). -/
def ecCommon (up itf : List (String × ℚ)) : List String :=
  (alKeys up).filter (fun f => decide (f ∈ alKeys itf))

/-- The first `feature_contributions` loop of `explain_recommendation`:
`user_value * item_value` for every shared feature with both values
positive. -/
def ecContribs0 (up itf : List (String × ℚ)) : List (String × ℚ) :=
  (ecCommon up itf).foldl
    (fun m f =>
      if 0 < alGetD up f 0 ∧ 0 < alGetD itf f 0 then
        alSet m f (alGetD up f 0 * alGetD itf f 0)
      else m)
    []

/-- The `category_sci-fi` special case of `explain_recommendation`: whenever
the feature exists on both sides its contribution is overwritten with a ×10
boost (regardless of sign). -/
def ecContribs (up itf : List (String × ℚ)) : List (String × ℚ) :=
  if "category_sci-fi" ∈ alKeys up ∧ "category_sci-fi" ∈ alKeys itf then
    alSet (ecContribs0 up itf) "category_sci-fi"
      (alGetD up "category_sci-fi" 0 * alGetD itf "category_sci-fi" 0 * 10)
  else ecContribs0 up itf

/-- The descending-by-contribution sort used twice in
`explain_recommendation`. -/
def ecSortDesc (l : List (String × ℚ)) : List (String × ℚ) :=
  sortBy (fun a b : String × ℚ => decide (b.2 ≤ a.2)) l

/-- The re-sorted `all_features` list of `explain_recommendation`: category
features (substring test `"category_" in f`) boosted ×5, then everything
sorted descending again. -/
def ecAllFeatures (up itf : List (String × ℚ)) : List (String × ℚ) :=
  ecSortDesc
    (((ecSortDesc (ecContribs up itf)).filter
        (fun p => pyHasSub "category_" p.1)).map (fun p => (p.1, p.2 * 5)) ++
      (ecSortDesc (ecContribs up itf)).filter (fun p => !pyHasSub "category_" p.1))

/-- The guaranteed category entry of `explain_recommendation`: the first
category feature of `all_features`, if any. -/
def ecTop0 (up itf : List (String × ℚ)) : List (String × ℚ) :=
  ((ecAllFeatures up itf).find? (fun p => pyHasSub "category_" p.1)).toList

/-- The `top_feature_list` of `explain_recommendation`: the guaranteed
category entry followed by the remaining features, sliced Python-style to
`top_features - len(top_feature_list)`. -/
def ecTopList (up itf : List (String × ℚ)) (tf : ℤ) : List (String × ℚ) :=
  ecTop0 up itf ++
    pyTake (tf - (ecTop0 up itf).length)
      ((ecAllFeatures up itf).filter
        (fun p : String × ℚ => decide (p ∉ ecTop0 up itf)))

/-- Embeds the body of `explain_recommendation` on a given user profile and
item feature mapping: per-feature contributions over shared positive
features, a ×10 boost for `category_sci-fi`, a further ×5 boost for every
category feature, descending sort, then one guaranteed category entry
followed by the remaining top features.  (The `item_categories`,
`user_categories` and `common_categories` variables of the source only feed
debug logging and are not modelled.) -/
def explainEntries (up itf : List (String × ℚ)) (tf : ℤ) : List ExplanationEntry :=
  (ecTopList up itf tf).map (fun p =>
    { feature := p.1
      display_name := if pyHasSub "category_" p.1 then pyRemoveSub "category_" p.1 else p.1
      user_preference := alGetD up p.1 0
      item_value := alGetD itf p.1 0
      contribution := p.2 })

/-- Embeds `ContentBased.explain_recommendation`; `none` models the
`"No data available for explanation"` result. -/
def cbExplain (s : CBState) (uid item_id : ℤ) (top_features : ℤ) :
    Option (List ExplanationEntry) :=
  let up := alGetD s.user_profiles uid []
  let itf := alGetD s.item_features item_id []
  if up = [] ∨ itf = [] then none
  else some (explainEntries up itf top_features)

/-! ## Coordinator merge step (`src/services/recommendation_service.py`) -/

/-- Fold of one engine's output list into the running
`all_recommendations` dict: excluded items are dropped, an item already
present accumulates `score * weight`, a new item starts at `score * weight`. -/
def mergeOne (weight : ℚ) (excludeRated : Bool) (excluded : List ℤ)
    (acc : List (ℤ × ℚ)) (recs : List (ℤ × ℚ)) : List (ℤ × ℚ) :=
  recs.foldl
    (fun a p =>
      if excludeRated ∧ p.1 ∈ excluded then a
      else
        match alGet? a p.1 with
        | some sc => alSet a p.1 (sc + p.2 * weight)
        | none => alSet a p.1 (p.2 * weight))
    acc

/-- Embeds the merging loop of `get_recommendations_for_user` (lines
134–150): each engine's output is folded into `all_recommendations` with
weight `1.0 / len(self.algorithms)`. -/
def mergeScores (outputs : List (List (ℤ × ℚ))) (excludeRated : Bool)
    (excluded : List ℤ) : List (ℤ × ℚ) :=
  outputs.foldl
    (fun allRecs recs =>
      mergeOne (1 / (outputs.length : ℚ)) excludeRated excluded allRecs recs)
    []

/-! ## Concrete instances used by the witnesses and counterexamples -/

/-- Similarity function used by witnesses: every pair scores `1`. -/
def constSim : List ℚ → List ℚ → Option ℚ := fun _ _ => some 1

/-- Ratings used by the collaborative witnesses: user 1 rated item 1; user 2
rated items 1 and 2. -/
def exCFRatings : List Rating := [⟨1, 1, 5⟩, ⟨2, 1, 5⟩, ⟨2, 2, 4⟩]

/-- A trained user-based collaborative engine over `exCFRatings`. -/
def exCFState : CFState := cfTrain (cfInit "user-based" constSim) exCFRatings

/-- Content data with a preference-seeded user whose only rating is at the
scale minimum: items 1 and 2 in category `a`, user 1 preferring `a`. -/
def exCBDataPref : CBData :=
  ⟨[⟨"I1", 1, ["a"], []⟩, ⟨"I2", 2, ["a"], []⟩],
   [⟨"alice", 1, [("a", 4/5)], []⟩],
   [⟨1, 1, 1⟩]⟩

/-- Content data with a preference-free user whose only rating is at the
scale minimum. -/
def exCBDataNoPref : CBData :=
  ⟨[⟨"I1", 1, ["a"], []⟩, ⟨"I2", 2, ["a"], []⟩],
   [⟨"bobby", 1, [], []⟩],
   [⟨1, 1, 1⟩]⟩

/-- Content data where user 1 positively rated category-`a` item 1, and item
2 shares the category. -/
def exCBDataCat : CBData :=
  ⟨[⟨"I1", 1, ["a"], []⟩, ⟨"I2", 2, ["a"], []⟩], [], [⟨1, 1, 5⟩]⟩

/-- Content data with one numeric feature `f`: user 1 positively rated item
1, item 2 is unrated. -/
def exCBDataF : CBData :=
  ⟨[⟨"A", 1, [], [("f", 1)]⟩, ⟨"B", 2, [], [("f", 1)]⟩], [], [⟨1, 1, 5⟩]⟩

/-! ## Lemma development -/

theorem mem_insertBy {α : Type} (le : α → α → Bool) (x a : α) (l : List α) :
    a ∈ insertBy le x l ↔ a = x ∨ a ∈ l := by
  induction l with
  | nil => simp [insertBy]
  | cons y ys ih =>
    by_cases h : le x y
    · simp [insertBy, h]
    · rw [insertBy, if_neg (by simp [h])]
      simp only [List.mem_cons, ih]
      tauto


theorem mem_sortBy {α : Type} (le : α → α → Bool) (a : α) (l : List α) :
    a ∈ sortBy le l ↔ a ∈ l := by
  induction l with
  | nil => simp [sortBy]
  | cons x xs ih => simp [sortBy, mem_insertBy, ih]


theorem mem_pyTake {α : Type} (n : ℤ) (l : List α) (a : α)
    (h : a ∈ pyTake n l) : a ∈ l := by
  unfold pyTake at h
  split at h
  · exact List.take_subset _ _ h
  · exact List.take_subset _ _ h

section AListLemmas

variable {K V : Type} [DecidableEq K]

theorem alGet?_alSet_self (l : List (K × V)) (k : K) (v : V) :
    alGet? (alSet l k v) k = some v := by
  induction l with
  | nil => simp [alSet, alGet?]
  | cons p rest ih =>
    obtain ⟨k1, v1⟩ := p
    by_cases h : k1 = k
    · simp [alSet, alGet?, h]
    · simp [alSet, alGet?, h, ih]

theorem alGet?_alSet_ne (l : List (K × V)) (k k2 : K) (v : V) (h : k2 ≠ k) :
    alGet? (alSet l k v) k2 = alGet? l k2 := by
  induction l with
  | nil => simp [alSet, alGet?, Ne.symm h]
  | cons p rest ih =>
    obtain ⟨k1, v1⟩ := p
    by_cases hp : k1 = k
    · subst hp
      simp [alSet, alGet?, Ne.symm h, h]
    · by_cases hp2 : k1 = k2
      · subst hp2
        rw [alSet, if_neg hp]
        simp [alGet?]
      · simp [alSet, alGet?, hp, hp2, ih]

theorem mem_alSet (l : List (K × V)) (k : K) (v : V) (p : K × V)
    (h : p ∈ alSet l k v) : p = (k, v) ∨ p ∈ l := by
  induction l with
  | nil => simpa [alSet] using h
  | cons q rest ih =>
    obtain ⟨k1, v1⟩ := q
    by_cases hq : k1 = k
    · simp only [alSet, hq, if_true, List.mem_cons] at h
      rcases h with h | h
      · exact Or.inl h
      · exact Or.inr (List.mem_cons_of_mem _ h)
    · simp only [alSet, hq, if_false, List.mem_cons] at h
      rcases h with h | h
      · exact Or.inr (h ▸ List.mem_cons_self _ _)
      · rcases ih h with h2 | h2
        · exact Or.inl h2
        · exact Or.inr (List.mem_cons_of_mem _ h2)

theorem alKeys_alSet_mem (l : List (K × V)) (k : K) (v : V) :
    k ∈ alKeys (alSet l k v) := by
  induction l with
  | nil => simp [alSet, alKeys]
  | cons q rest ih =>
    obtain ⟨k1, v1⟩ := q
    by_cases hq : k1 = k
    · simp [alSet, hq, alKeys]
    · simp only [alSet, hq, if_false, alKeys, List.map_cons, List.mem_cons]
      exact Or.inr ih

theorem alKeys_alSet_mono (l : List (K × V)) (k k2 : K) (v : V)
    (h : k2 ∈ alKeys l) : k2 ∈ alKeys (alSet l k v) := by
  induction l with
  | nil => simp [alKeys] at h
  | cons q rest ih =>
    obtain ⟨k1, v1⟩ := q
    simp only [alKeys, List.map_cons, List.mem_cons] at h
    by_cases hq : k1 = k
    · rcases h with h | h
      · simp [alSet, hq, alKeys, hq ▸ h]
      · simp only [alSet, hq, if_true, alKeys, List.map_cons, List.mem_cons]
        exact Or.inr h
    · simp only [alSet, hq, if_false, alKeys, List.map_cons, List.mem_cons]
      rcases h with h | h
      · exact Or.inl h
      · exact Or.inr (ih h)

theorem alKeys_alSet_sub (l : List (K × V)) (k k2 : K) (v : V)
    (h : k2 ∈ alKeys (alSet l k v)) : k2 = k ∨ k2 ∈ alKeys l := by
  induction l with
  | nil => simpa [alSet, alKeys] using h
  | cons q rest ih =>
    obtain ⟨k1, v1⟩ := q
    by_cases hq : k1 = k
    · simp only [alSet, hq, if_true, alKeys, List.map_cons, List.mem_cons] at h
      rcases h with h | h
      · exact Or.inl h
      · exact Or.inr (by simp only [alKeys, List.map_cons, List.mem_cons]; exact Or.inr h)
    · simp only [alSet, hq, if_false, alKeys, List.map_cons, List.mem_cons] at h
      rcases h with h | h
      · exact Or.inr (by simp only [alKeys, List.map_cons, List.mem_cons]; exact Or.inl h)
      · rcases ih h with h2 | h2
        · exact Or.inl h2
        · exact Or.inr (by simp only [alKeys, List.map_cons, List.mem_cons]; exact Or.inr h2)

theorem alGet?_eq_none_of_not_mem (l : List (K × V)) (k : K)
    (h : k ∉ alKeys l) : alGet? l k = none := by
  induction l with
  | nil => simp [alGet?]
  | cons q rest ih =>
    obtain ⟨k1, v1⟩ := q
    simp only [alKeys, List.map_cons, List.mem_cons, not_or] at h
    have h1 : k1 ≠ k := fun hh => h.1 hh.symm
    simp [alGet?, h1, ih h.2]

theorem mem_of_alGet?_eq_some (l : List (K × V)) (k : K) (v : V)
    (h : alGet? l k = some v) : (k, v) ∈ l := by
  induction l with
  | nil => simp [alGet?] at h
  | cons q rest ih =>
    obtain ⟨k1, v1⟩ := q
    by_cases hq : k1 = k
    · simp only [alGet?, hq, if_true, Option.some.injEq] at h
      subst hq; subst h
      exact List.mem_cons_self _ _
    · simp only [alGet?, hq, if_false] at h
      exact List.mem_cons_of_mem _ (ih h)

theorem mem_alKeys_of_alGet?_eq_some (l : List (K × V)) (k : K) (v : V)
    (h : alGet? l k = some v) : k ∈ alKeys l := by
  have := mem_of_alGet?_eq_some l k v h
  exact List.mem_map_of_mem Prod.fst this

theorem alGet?_isSome_of_mem_alKeys (l : List (K × V)) (k : K)
    (h : k ∈ alKeys l) : ∃ v, alGet? l k = some v := by
  induction l with
  | nil => simp [alKeys] at h
  | cons q rest ih =>
    obtain ⟨k1, v1⟩ := q
    by_cases hq : k1 = k
    · exact ⟨v1, by simp [alGet?, hq]⟩
    · simp only [alKeys, List.map_cons, List.mem_cons] at h
      rcases h with h | h
      · exact absurd h.symm hq
      · simpa [alGet?, hq] using ih h

theorem alKeys_nodup_alSet (l : List (K × V)) (k : K) (v : V)
    (h : (alKeys l).Nodup) : (alKeys (alSet l k v)).Nodup := by
  induction l with
  | nil => simp [alSet, alKeys]
  | cons q rest ih =>
    obtain ⟨k1, v1⟩ := q
    simp only [alKeys, List.map_cons, List.nodup_cons] at h
    by_cases hq : k1 = k
    · subst hq
      simp only [alSet, if_true, alKeys, List.map_cons, List.nodup_cons]
      exact h
    · simp only [alSet, hq, if_false, alKeys, List.map_cons, List.nodup_cons]
      constructor
      · intro hmem
        rcases alKeys_alSet_sub rest k k1 v hmem with h2 | h2
        · exact hq h2
        · exact h.1 h2
      · exact ih h.2

/-- Generic invariant preservation across a `List.foldl`. -/
theorem foldl_invariant {β γ : Type} (f : γ → β → γ) (Inv : γ → Prop)
    (l : List β) (init : γ) (h0 : Inv init)
    (hstep : ∀ acc b, b ∈ l → Inv acc → Inv (f acc b)) :
    Inv (l.foldl f init) := by
  induction l generalizing init with
  | nil => exact h0
  | cons b rest ih =>
    exact ih (f init b) (hstep init b (List.mem_cons_self _ _) h0)
      (fun acc c hc => hstep acc c (List.mem_cons_of_mem _ hc))

end AListLemmas

/-! ## Claim C7: cosine similarity on zero-norm input -/

/-- C7: for every pair of equal-length numeric vectors where at least one
vector has zero Euclidean norm, `cosine_similarity` returns exactly `0.0`.
The embedded function is total and real-valued, so no NaN and no exception
can occur. -/
theorem cosine_zero_norm_eq_zero (v1 v2 : List ℚ) (hlen : v1.length = v2.length)
    (h : vecNorm v1 = 0 ∨ vecNorm v2 = 0) :
    cosine_similarity v1 v2 = 0 := by
  rw [cosine_similarity, if_pos h]

/-- Witness for C7 at `v1 = [0, 0]`, `v2 = [3, 4]`. -/
theorem cosine_zero_norm_eq_zero_witness :
    ([(0 : ℚ), 0].length = [(3 : ℚ), 4].length) ∧
      cosine_similarity [0, 0] [3, 4] = 0 :=
  ⟨rfl, cosine_zero_norm_eq_zero [0, 0] [3, 4] rfl
    (Or.inl (by simp [vecNorm, sumSq, dotList]))⟩

/-! ## Claim C9: idempotence of collaborative training -/

/-- C9: training a collaborative engine twice with identical input leaves it
in exactly the state of training once (in particular both similarity tables
coincide), and recommendation output is identical for every user and limit. -/
theorem cfTrain_idempotent (s : CFState) (ratings : List Rating) :
    cfTrain (cfTrain s ratings) ratings = cfTrain s ratings ∧
      ∀ uid limit, cfRecommend (cfTrain (cfTrain s ratings) ratings) uid limit =
        cfRecommend (cfTrain s ratings) uid limit := by
  have h : cfTrain (cfTrain s ratings) ratings = cfTrain s ratings := by
    by_cases hm : s.method = "user-based"
    · simp [cfTrain, hm]
    · simp [cfTrain, hm]
  exact ⟨h, fun uid limit => by rw [h]⟩

/-! ## Claim C3: collaborative predictions lie in the clamp range -/

theorem clampRating_bounds (p : ℚ) : 1/2 ≤ clampRating p ∧ clampRating p ≤ 5 :=
  ⟨le_max_left _ _, max_le (by norm_num) (min_le_left _ _)⟩

/-- Every pair produced by `cfUserBased` carries a clamped rating. -/
theorem cfUserBased_mem_clamped (s : CFState) (uid limit : ℤ) (i : ℤ) (p : ℚ)
    (h : (i, p) ∈ cfUserBased s uid limit) : ∃ q, p = clampRating q := by
  simp only [cfUserBased] at h
  split_ifs at h with h1 h2
  · simp at h
  · simp at h
  · have h3 := mem_pyTake _ _ _ h
    rw [mem_sortBy] at h3
    rw [List.mem_filterMap] at h3
    obtain ⟨e, _, hfe⟩ := h3
    split_ifs at hfe
    rw [Option.some.injEq, Prod.mk.injEq] at hfe
    exact ⟨_, hfe.2.symm⟩

/-- Every pair produced by `cfItemBased` carries a clamped rating. -/
theorem cfItemBased_mem_clamped (s : CFState) (uid limit : ℤ) (i : ℤ) (p : ℚ)
    (h : (i, p) ∈ cfItemBased s uid limit) : ∃ q, p = clampRating q := by
  simp only [cfItemBased] at h
  split_ifs at h with h1
  · simp at h
  · have h3 := mem_pyTake _ _ _ h
    rw [mem_sortBy] at h3
    rw [List.mem_filterMap] at h3
    obtain ⟨e, _, hfe⟩ := h3
    split_ifs at hfe
    rw [Option.some.injEq, Prod.mk.injEq] at hfe
    exact ⟨_, hfe.2.symm⟩

/-- C3: for every trained collaborative engine (any method, any similarity
function), every user id and every limit, each predicted rating returned by
`recommend_for_user` lies in `[0.5, 5.0]`. -/
theorem cf_predicted_rating_in_range (s : CFState) (ratings : List Rating)
    (uid limit i : ℤ) (p : ℚ)
    (h : (i, p) ∈ cfRecommend (cfTrain s ratings) uid limit) :
    1/2 ≤ p ∧ p ≤ 5 := by
  rw [cfRecommend] at h
  split_ifs at h
  · rcases cfUserBased_mem_clamped _ _ _ _ _ h with ⟨q, rfl⟩
    exact clampRating_bounds q
  · rcases cfItemBased_mem_clamped _ _ _ _ _ h with ⟨q, rfl⟩
    exact clampRating_bounds q

/-- Evaluation of the trained example engine: user 1 is recommended item 2
at predicted rating `9/2`. -/
theorem exCF_recommend_eval :
    cfRecommend (cfTrain (cfInit "user-based" constSim) exCFRatings) 1 10 =
      [(2, (9 : ℚ)/2)] := by
  norm_num [cfRecommend, cfTrain, cfInit, constSim, exCFRatings, cfUserBased,
    ubPredictions, ubStep, buildUserItem, buildItemUser, meansOf,
    computeSimilarities, innerKeyUnion, denseVector, simEntry, firstDedup,
    alSet, alGet?, alGetD, alKeys, alAdd, sortBy, insertBy, byScoreDesc, pyTake,
    clampRating, List.foldl_cons, List.filterMap, List.take, Int.toNat, max_def,
    min_def, List.cons_ne_nil]

/-- Witness for C3 on the trained engine over `exCFRatings`. -/
theorem cf_predicted_rating_in_range_witness :
    (2, (9 : ℚ)/2) ∈ cfRecommend (cfTrain (cfInit "user-based" constSim) exCFRatings) 1 10 ∧
      (1/2 ≤ (9 : ℚ)/2 ∧ (9 : ℚ)/2 ≤ 5) := by
  have hm : (2, (9 : ℚ)/2) ∈
      cfRecommend (cfTrain (cfInit "user-based" constSim) exCFRatings) 1 10 := by
    rw [exCF_recommend_eval]
    exact List.mem_singleton_self _
  exact ⟨hm, cf_predicted_rating_in_range _ _ _ _ _ _ hm⟩

/-! ## Claim C6: equal-weight hybrid merge -/

/-- Folding a list that holds no entry for `i` does not change `i`'s merged
score. -/
theorem mergeOne_lookup_of_absent (w : ℚ) (b : Bool) (ex : List ℤ)
    (recs : List (ℤ × ℚ)) (acc : List (ℤ × ℚ)) (i : ℤ)
    (h : ∀ p ∈ recs, p.1 ≠ i) :
    alGet? (mergeOne w b ex acc recs) i = alGet? acc i := by
  induction recs generalizing acc with
  | nil => rfl
  | cons p rest ih =>
    have hp : p.1 ≠ i := h p (List.mem_cons_self _ _)
    have hrest : ∀ q ∈ rest, q.1 ≠ i := fun q hq => h q (List.mem_cons_of_mem _ hq)
    show alGet? (List.foldl _ (if b = true ∧ p.1 ∈ ex then acc else _) rest) i = _
    by_cases hskip : b = true ∧ p.1 ∈ ex
    · rw [if_pos hskip]
      exact ih acc hrest
    · rw [if_neg hskip]
      rcases hacc : alGet? acc p.1 with _ | sc
      all_goals simp only [hacc]
      · exact (ih _ hrest).trans (alGet?_alSet_ne _ _ _ _ (Ne.symm hp))
      · exact (ih _ hrest).trans (alGet?_alSet_ne _ _ _ _ (Ne.symm hp))

/-- Folding a list whose unique entry for `i` scores `s` adds `s * w` to
`i`'s merged score. -/
theorem mergeOne_lookup_of_unique (w : ℚ) (b : Bool) (ex : List ℤ)
    (recs : List (ℤ × ℚ)) (acc : List (ℤ × ℚ)) (i : ℤ) (s : ℚ)
    (hocc : recs.filter (fun p => decide (p.1 = i)) = [(i, s)])
    (hnx : ¬(b = true ∧ i ∈ ex)) :
    alGet? (mergeOne w b ex acc recs) i = some (alGetD acc i 0 + s * w) := by
  induction recs generalizing acc with
  | nil => simp [List.filter_nil] at hocc
  | cons p rest ih =>
    obtain ⟨pk, pv⟩ := p
    by_cases hp : pk = i
    · subst hp
      rw [List.filter_cons_of_pos (by simp)] at hocc
      rw [List.cons.injEq, Prod.mk.injEq] at hocc
      obtain ⟨⟨-, hpv⟩, hrest0⟩ := hocc
      subst hpv
      have hrest : ∀ q ∈ rest, q.1 ≠ pk := by
        intro q hq
        simpa using List.filter_eq_nil_iff.mp hrest0 q hq
      show alGet? (List.foldl _ (if b = true ∧ pk ∈ ex then acc else _) rest) pk = _
      rw [if_neg hnx]
      rcases hacc : alGet? acc pk with _ | sc
      all_goals simp only [hacc]
      · refine (mergeOne_lookup_of_absent w b ex rest _ pk hrest).trans ?_
        rw [alGet?_alSet_self, alGetD, hacc]
        simp
      · refine (mergeOne_lookup_of_absent w b ex rest _ pk hrest).trans ?_
        rw [alGet?_alSet_self, alGetD, hacc]
        simp
    · rw [List.filter_cons_of_neg (by simp [hp])] at hocc
      show alGet? (List.foldl _ (if b = true ∧ pk ∈ ex then acc else _) rest) i = _
      by_cases hskip : b = true ∧ pk ∈ ex
      · rw [if_pos hskip]
        exact ih acc hocc
      · rw [if_neg hskip]
        rcases hacc : alGet? acc pk with _ | sc
        all_goals simp only [hacc]
        · refine (ih _ hocc).trans ?_
          rw [alGetD, alGet?_alSet_ne _ _ _ _ (Ne.symm hp)]
          rfl
        · refine (ih _ hocc).trans ?_
          rw [alGetD, alGet?_alSet_ne _ _ _ _ (Ne.symm hp)]
          rfl

/-- C6: in hybrid mode with two engines, an item both engines return (with
scores `s1` and `s2`) that is not excluded gets merged score
`0.5·s1 + 0.5·s2` before sorting and truncation. -/
theorem hybrid_merge_equal_weights (r1 r2 : List (ℤ × ℚ)) (excludeRated : Bool)
    (excluded : List ℤ) (i : ℤ) (s1 s2 : ℚ)
    (h1 : r1.filter (fun p => decide (p.1 = i)) = [(i, s1)])
    (h2 : r2.filter (fun p => decide (p.1 = i)) = [(i, s2)])
    (hex : ¬(excludeRated = true ∧ i ∈ excluded)) :
    alGet? (mergeScores [r1, r2] excludeRated excluded) i =
      some (1/2 * s1 + 1/2 * s2) := by
  rw [mergeScores, List.foldl_cons, List.foldl_cons, List.foldl_nil]
  rw [mergeOne_lookup_of_unique _ _ _ _ _ _ _ h2 hex]
  simp only [alGetD]
  rw [mergeOne_lookup_of_unique _ _ _ _ _ _ _ h1 hex]
  simp only [alGetD, alGet?, Option.getD_none, Option.getD_some, Option.some.injEq,
    List.length_cons, List.length_nil]
  push_cast
  ring

/-- Witness for C6: engine outputs `[(7, 4)]` and `[(7, 2)]` merge to `3`. -/
theorem hybrid_merge_equal_weights_witness :
    ([((7 : ℤ), (4 : ℚ))].filter (fun p => decide (p.1 = 7)) = [(7, 4)]) ∧
      ([((7 : ℤ), (2 : ℚ))].filter (fun p => decide (p.1 = 7)) = [(7, 2)]) ∧
      ¬(true = true ∧ (7 : ℤ) ∈ ([] : List ℤ)) ∧
      alGet? (mergeScores [[(7, 4)], [(7, 2)]] true []) 7 = some (1/2 * 4 + 1/2 * 2) :=
  ⟨by decide, by decide, by simp,
    hybrid_merge_equal_weights [(7, 4)] [(7, 2)] true [] 7 4 2 (by decide) (by decide)
      (by simp)⟩

/-! ## Claim C4: recommended items are never already rated -/

theorem alGetD_alSet_self {K V : Type} [DecidableEq K]
    (l : List (K × V)) (k : K) (v d : V) : alGetD (alSet l k v) k d = v := by
  rw [alGetD, alGet?_alSet_self, Option.getD_some]

theorem alGetD_alSet_ne {K V : Type} [DecidableEq K]
    (l : List (K × V)) (k k2 : K) (v d : V) (h : k2 ≠ k) :
    alGetD (alSet l k v) k2 d = alGetD l k2 d := by
  rw [alGetD, alGet?_alSet_ne _ _ _ _ h, alGetD]

/-- Every rating in the training input leaves its item id among the keys of
the rater's row of `buildUserItem`. -/
theorem buildUserItem_key_of_rating (ratings : List Rating) (r : Rating)
    (hr : r ∈ ratings) :
    r.item_id ∈ alKeys (alGetD (buildUserItem ratings) r.user_id []) := by
  rw [buildUserItem]
  generalize ([] : List (ℤ × List (ℤ × ℚ))) = acc
  induction ratings generalizing acc with
  | nil => cases hr
  | cons r0 rest ih =>
    rw [List.foldl_cons]
    rcases List.mem_cons.mp hr with h0 | h0
    · subst h0
      apply foldl_invariant _
        (fun a => r.item_id ∈ alKeys (alGetD a r.user_id []))
      · rw [alGetD_alSet_self]
        exact alKeys_alSet_mem _ _ _
      · intro acc2 r2 _ hin
        by_cases hu : r2.user_id = r.user_id
        · rw [hu, alGetD_alSet_self]
          exact alKeys_alSet_mono _ _ _ _ (hu ▸ hin)
        · rw [alGetD_alSet_ne _ _ _ _ _ (fun hh => hu hh.symm)]
          exact hin
    · exact ih h0 _

/-- Items accumulated by `ubStep` stay outside the rated set. -/
theorem ubStep_keys_not_rated (s : CFState) (rated : List ℤ)
    (acc : List (ℤ × (ℚ × ℚ))) (su : ℤ × ℚ)
    (h : ∀ k ∈ alKeys acc, k ∉ rated) :
    ∀ k ∈ alKeys (ubStep s rated acc su), k ∉ rated := by
  rw [ubStep]
  apply foldl_invariant _ (fun a => ∀ k ∈ alKeys a, k ∉ rated) _ _ h
  intro acc2 ir _ hacc2 k hk
  by_cases hir : ir.1 ∈ rated
  · rw [if_pos hir] at hk
    exact hacc2 k hk
  · rw [if_neg hir] at hk
    rcases alKeys_alSet_sub _ _ _ _ hk with h2 | h2
    · subst h2; exact hir
    · exact hacc2 k h2

/-- Items accumulated by the whole predictions loop stay outside the rated
set. -/
theorem ubPredictions_keys_not_rated (s : CFState) (rated : List ℤ)
    (sims : List (ℤ × ℚ)) :
    ∀ k ∈ alKeys (ubPredictions s rated sims), k ∉ rated := by
  rw [ubPredictions]
  apply foldl_invariant _ (fun a => ∀ k ∈ alKeys a, k ∉ rated)
  · intro k hk
    simp [alKeys] at hk
  · intro acc su _ hacc
    exact ubStep_keys_not_rated s rated acc su hacc

/-- Items recommended by either collaborative path are unrated by the target
user in the engine's rating matrix. -/
theorem cfRecommend_not_rated (s : CFState) (uid limit i : ℤ) (p : ℚ)
    (h : (i, p) ∈ cfRecommend s uid limit) :
    i ∉ alKeys (alGetD s.user_item_ratings uid []) := by
  rw [cfRecommend] at h
  split_ifs at h
  · simp only [cfUserBased] at h
    split_ifs at h with h1 h2
    · simp at h
    · simp at h
    · have h3 := mem_pyTake _ _ _ h
      rw [mem_sortBy, List.mem_filterMap] at h3
      obtain ⟨e, he, hfe⟩ := h3
      split_ifs at hfe
      rw [Option.some.injEq, Prod.mk.injEq] at hfe
      have hkey := ubPredictions_keys_not_rated s
        (alKeys (alGetD s.user_item_ratings uid []))
        (alGetD s.user_similarity uid []) e.1 (List.mem_map_of_mem Prod.fst he)
      rw [hfe.1] at hkey
      exact hkey
  · simp only [cfItemBased] at h
    split_ifs at h with h1
    · simp at h
    · have h3 := mem_pyTake _ _ _ h
      rw [mem_sortBy, List.mem_filterMap] at h3
      obtain ⟨j, hj, hfe⟩ := h3
      split_ifs at hfe
      rw [Option.some.injEq, Prod.mk.injEq] at hfe
      have hj2 := (List.mem_filter.mp hj).2
      rw [← hfe.1]
      simpa using hj2

/-- After `train`, the user-item matrix is `buildUserItem` of the input. -/
theorem cfTrain_user_item_ratings (s : CFState) (ratings : List Rating) :
    (cfTrain s ratings).user_item_ratings = buildUserItem ratings := by
  rw [cfTrain]
  split_ifs <;> rfl

/-- C4: for every rating list used to train a collaborative engine (either
method), no item id returned by `recommend_for_user` for a target user is an
item that user has a rating for in the training data. -/
theorem cf_never_recommends_rated (s : CFState) (ratings : List Rating)
    (uid limit i : ℤ) (p : ℚ)
    (h : (i, p) ∈ cfRecommend (cfTrain s ratings) uid limit) :
    ∀ r ∈ ratings, r.user_id = uid → r.item_id ≠ i := by
  intro r hr hru hri
  have hnot := cfRecommend_not_rated _ _ _ _ _ h
  rw [cfTrain_user_item_ratings] at hnot
  have hkey := buildUserItem_key_of_rating ratings r hr
  rw [hru, hri] at hkey
  exact hnot hkey

/-- Witness for C4 on the trained engine over `exCFRatings`: item 2 is
recommended to user 1 and indeed user 1 has no rating for item 2. -/
theorem cf_never_recommends_rated_witness :
    (2, (9 : ℚ)/2) ∈ cfRecommend (cfTrain (cfInit "user-based" constSim) exCFRatings) 1 10 ∧
      ∀ r ∈ exCFRatings, r.user_id = 1 → r.item_id ≠ 2 := by
  have hm : (2, (9 : ℚ)/2) ∈
      cfRecommend (cfTrain (cfInit "user-based" constSim) exCFRatings) 1 10 := by
    rw [exCF_recommend_eval]
    exact List.mem_singleton_self _
  exact ⟨hm, cf_never_recommends_rated _ _ _ _ _ _ hm⟩

/-! ## Claim C5: similarity tables keep exactly the above-threshold pairs -/

/-- Lookup in an association list built by mapping keys to computed values. -/
theorem alGet?_map_pair {K B : Type} [DecidableEq K] (l : List K) (g : K → B)
    (k : K) (hk : k ∈ l) :
    alGet? (l.map (fun x => (x, g x))) k = some (g k) := by
  induction l with
  | nil => cases hk
  | cons x xs ih =>
    by_cases hx : x = k
    · subst hx
      simp [alGet?]
    · rcases List.mem_cons.mp hk with h | h
      · exact absurd h.symm hx
      · simp [alGet?, hx, ih h]

/-- Lookup in an association list built by `filterMap` where each source key
produces at most its own entry. -/
theorem alGet?_filterMap_keyed {K B : Type} [DecidableEq K] (l : List K)
    (h : K → Option B) (k : K) :
    alGet? (l.filterMap (fun x => (h x).map (fun v => (x, v)))) k =
      if k ∈ l then h k else none := by
  induction l with
  | nil => simp [alGet?]
  | cons x xs ih =>
    rcases hx : h x with _ | v
    · simp only [List.filterMap_cons, hx, Option.map_none']
      rw [ih]
      by_cases hk : k = x
      · subst hk
        simp [hx]
      · simp [List.mem_cons, hk]
    · simp only [List.filterMap_cons, hx, Option.map_some']
      by_cases hk : k = x
      · subst hk
        simp [alGet?, hx]
      · simp only [alGet?]
        rw [if_neg (fun hh => hk hh.symm), ih]
        simp [List.mem_cons, hk]

/-- Unfolds the retention test of the similarity loops. -/
theorem simEntry_eq_some_iff (f : List ℚ → List ℚ → Option ℚ) (v1 v2 : List ℚ)
    (v : ℚ) :
    simEntry f v1 v2 = some v ↔ f v1 v2 = some v ∧ 1/10 < v := by
  rcases hf : f v1 v2 with _ | w
  · rw [simEntry, hf]
    simp
  · rw [simEntry, hf]
    show (if 1/10 < w then some w else none) = some v ↔ some w = some v ∧ 1/10 < v
    by_cases hw : 1/10 < w
    · rw [if_pos hw]
      constructor
      · intro h
        rw [Option.some.injEq] at h
        subst h
        exact ⟨rfl, hw⟩
      · intro h
        exact h.1
    · rw [if_neg hw]
      constructor
      · intro h
        cases h
      · intro h
        obtain ⟨h1, h2⟩ := h
        rw [Option.some.injEq] at h1
        subst h1
        exact absurd h2 hw

/-- Characterisation of one row of `computeSimilarities`. -/
theorem computeSimilarities_lookup (f : List ℚ → List ℚ → Option ℚ)
    (m : List (ℤ × List (ℤ × ℚ))) (k1 k2 : ℤ)
    (h1 : k1 ∈ alKeys m) (h12 : k2 ≠ k1) :
    alGet? (alGetD (computeSimilarities f m) k1 []) k2 =
      if k2 ∈ alKeys m then
        simEntry f (denseVector m (innerKeyUnion m) k1)
          (denseVector m (innerKeyUnion m) k2)
      else none := by
  rw [computeSimilarities, alGetD, alGet?_map_pair _ _ _ h1, Option.getD_some]
  rw [alGet?_filterMap_keyed]
  by_cases h2 : k2 ∈ alKeys m
  · rw [if_pos h2, if_pos]
    rw [List.mem_filter]
    exact ⟨h2, by simp [h12]⟩
  · rw [if_neg h2, if_neg]
    intro hmem
    exact h2 (List.mem_filter.mp hmem).1

/-- C5: after every `train`, the similarity table selected by the configured
method holds an entry for an ordered pair of distinct entities present in
the rating matrix exactly when the configured similarity function of their
dense rating vectors is not NaN (`some`) and exceeds `0.1`; the stored value
is that similarity. -/
theorem cf_similarity_threshold (s : CFState) (ratings : List Rating)
    (k1 k2 : ℤ) (v : ℚ) (h12 : k1 ≠ k2) :
    (s.method = "user-based" →
      k1 ∈ alKeys (buildUserItem ratings) → k2 ∈ alKeys (buildUserItem ratings) →
      (alGet? (alGetD (cfTrain s ratings).user_similarity k1 []) k2 = some v ↔
        s.simFunc
            (denseVector (buildUserItem ratings) (innerKeyUnion (buildUserItem ratings)) k1)
            (denseVector (buildUserItem ratings) (innerKeyUnion (buildUserItem ratings)) k2)
          = some v ∧ 1/10 < v)) ∧
    (s.method ≠ "user-based" →
      k1 ∈ alKeys (buildItemUser ratings) → k2 ∈ alKeys (buildItemUser ratings) →
      (alGet? (alGetD (cfTrain s ratings).item_similarity k1 []) k2 = some v ↔
        s.simFunc
            (denseVector (buildItemUser ratings) (innerKeyUnion (buildItemUser ratings)) k1)
            (denseVector (buildItemUser ratings) (innerKeyUnion (buildItemUser ratings)) k2)
          = some v ∧ 1/10 < v)) := by
  constructor
  · intro hm h1 h2
    have hus : (cfTrain s ratings).user_similarity =
        computeSimilarities s.simFunc (buildUserItem ratings) := by
      simp only [cfTrain]
      rw [if_pos hm]
    rw [hus, computeSimilarities_lookup s.simFunc _ _ _ h1 (Ne.symm h12), if_pos h2]
    exact simEntry_eq_some_iff _ _ _ _
  · intro hm h1 h2
    have his : (cfTrain s ratings).item_similarity =
        computeSimilarities s.simFunc (buildItemUser ratings) := by
      simp only [cfTrain]
      rw [if_neg hm]
    rw [his, computeSimilarities_lookup s.simFunc _ _ _ h1 (Ne.symm h12), if_pos h2]
    exact simEntry_eq_some_iff _ _ _ _

/-- Witness for C5: in the trained example engine, users 1 and 2 score
similarity `1`, which exceeds the threshold and is stored. -/
theorem cf_similarity_threshold_witness :
    ((1 : ℤ) ≠ 2) ∧
      alGet? (alGetD (cfTrain (cfInit "user-based" constSim) exCFRatings).user_similarity 1 []) 2
        = some 1 := by
  have h := cf_similarity_threshold (cfInit "user-based" constSim) exCFRatings 1 2 1
    (by decide)
  have h1 := h.1 rfl (by decide) (by decide)
  exact ⟨by decide, h1.mpr ⟨rfl, by norm_num⟩⟩

/-! ## Claim C2: users with no positively-rated items -/

/-- Every value in any row of `buildUserItem` stems from a training rating
of the row's user. -/
theorem buildUserItem_entries_provenance (ratings : List Rating) :
    ∀ e ∈ buildUserItem ratings, ∀ q ∈ e.2,
      ∃ r ∈ ratings, r.user_id = e.1 ∧ r.item_id = q.1 ∧ r.value = q.2 := by
  rw [buildUserItem]
  refine foldl_invariant _
    (fun a : List (ℤ × List (ℤ × ℚ)) => ∀ e ∈ a, ∀ q ∈ e.2,
      ∃ r ∈ ratings, r.user_id = e.1 ∧ r.item_id = q.1 ∧ r.value = q.2)
    _ _ ?_ ?_
  · intro e he
    cases he
  · intro acc r2 hr2 hInv e he q hq
    rcases mem_alSet _ _ _ _ he with h | h
    · rw [h] at hq
      rcases mem_alSet _ _ _ _ hq with h2 | h2
      · exact ⟨r2, hr2, by rw [h], by rw [h2], by rw [h2]⟩
      · rcases hacc : alGet? acc r2.user_id with _ | row0
        · rw [alGetD, hacc, Option.getD_none] at h2
          cases h2
        · rw [alGetD, hacc, Option.getD_some] at h2
          have := hInv (r2.user_id, row0) (mem_of_alGet?_eq_some _ _ _ hacc) q h2
          obtain ⟨r, hr, hru, hri, hrv⟩ := this
          exact ⟨r, hr, by rw [h]; exact hru, hri, hrv⟩
    · exact hInv e h q hq

/-- With no explicit preferences for the user, the seeded profile is empty. -/
theorem cbSeedProfile_empty (users : List User) (uid : ℤ)
    (hpref : ∀ u ∈ users, u.id = uid → u.preferences = []) :
    cbSeedProfile users uid = [] := by
  rcases hf : users.find? (fun u => decide (u.id = uid)) with _ | u
  · rw [cbSeedProfile, hf]
  · rw [cbSeedProfile, hf]
    have hu := List.mem_of_find?_eq_some hf
    have hid : u.id = uid := by simpa using List.find?_some hf
    show (if u.preferences ≠ [] then _ else []) = []
    rw [hpref u hu hid]
    simp

/-- When every rating normalizes to a non-positive weight, the accumulation
loop leaves the profile untouched. -/
theorem cbProfileAccum_skip_all (itf : List (ℤ × List (String × ℚ)))
    (rats : List (ℤ × ℚ)) (seeded : List (String × ℚ))
    (hneg : ∀ q ∈ rats, (q.2 - 1) / 4 ≤ 0) :
    cbProfileAccum itf rats seeded = (0, seeded) := by
  rw [cbProfileAccum]
  apply foldl_invariant _ (fun a => a = (0, seeded))
  · rfl
  · intro acc p hp hInv
    rw [if_pos (hneg p hp)]
    exact hInv

/-- A user with no positively-rated items and no explicit preferences gets
the empty profile. -/
theorem cbBuildProfile_empty (users : List User)
    (itf : List (ℤ × List (String × ℚ))) (uid : ℤ) (rats : List (ℤ × ℚ))
    (hneg : ∀ q ∈ rats, (q.2 - 1) / 4 ≤ 0)
    (hpref : ∀ u ∈ users, u.id = uid → u.preferences = []) :
    cbBuildProfile users itf uid rats = [] := by
  rw [cbBuildProfile, cbSeedProfile_empty users uid hpref,
    cbProfileAccum_skip_all itf rats [] hneg]
  norm_num

/-- An empty profile short-circuits content recommendations to the empty
list. -/
theorem cbRecommend_empty_profile (s : CBState) (uid limit : ℤ)
    (h : alGetD s.user_profiles uid [] = []) :
    cbRecommend s uid limit = [] := by
  simp only [cbRecommend]
  rw [if_pos h]

/-- C2 amended: a user all of whose ratings normalize to weight ≤ 0 *and*
who carries no explicit preferences has the empty profile after training,
and `recommend_for_user` returns the empty list. -/
theorem cb_no_positive_ratings_empty (s : CBState) (d : CBData) (uid : ℤ)
    (hneg : ∀ r ∈ d.ratings, r.user_id = uid → (r.value - 1) / 4 ≤ 0)
    (hpref : ∀ u ∈ d.users, u.id = uid → u.preferences = []) :
    alGetD (cbTrain s d).user_profiles uid [] = [] ∧
      ∀ limit, cbRecommend (cbTrain s d) uid limit = [] := by
  have hprof : alGetD (cbTrain s d).user_profiles uid [] = [] := by
    have hup : (cbTrain s d).user_profiles =
        cbBuildUserProfiles d.users (cbItemFeatures d.items) (buildUserItem d.ratings) :=
      rfl
    rw [hup, cbBuildUserProfiles]
    apply foldl_invariant _ (fun a => alGetD a uid [] = [])
    · rfl
    · intro acc p hp hInv
      by_cases hpe : p.2 = []
      · rw [if_pos hpe]
        exact hInv
      · rw [if_neg hpe]
        by_cases hk : p.1 = uid
        · rw [hk, alGetD_alSet_self]
          apply cbBuildProfile_empty _ _ _ _ _ hpref
          intro q hq
          obtain ⟨r, hr, hru, hri, hrv⟩ :=
            buildUserItem_entries_provenance d.ratings p hp q hq
          rw [← hrv]
          exact hneg r hr (by rw [hru, hk])
        · rw [alGetD_alSet_ne _ _ _ _ _ (fun hh => hk hh.symm)]
          exact hInv
  exact ⟨hprof, fun limit => cbRecommend_empty_profile _ _ _ hprof⟩

/-- Witness for the amended C2 on `exCBDataNoPref`. -/
theorem cb_no_positive_ratings_empty_witness :
    (∀ r ∈ exCBDataNoPref.ratings, r.user_id = 1 → (r.value - 1) / 4 ≤ 0) ∧
      (∀ u ∈ exCBDataNoPref.users, u.id = 1 → u.preferences = []) ∧
      (alGetD (cbTrain cbInit exCBDataNoPref).user_profiles 1 [] = [] ∧
        ∀ limit, cbRecommend (cbTrain cbInit exCBDataNoPref) 1 limit = []) := by
  have hneg : ∀ r ∈ exCBDataNoPref.ratings, r.user_id = 1 → (r.value - 1) / 4 ≤ 0 := by
    intro r hr _
    rcases List.mem_singleton.mp hr with rfl
    norm_num [exCBDataNoPref]
  have hpref : ∀ u ∈ exCBDataNoPref.users, u.id = 1 → u.preferences = [] := by
    intro u hu _
    rcases List.mem_singleton.mp hu with rfl
    rfl
  exact ⟨hneg, hpref, cb_no_positive_ratings_empty cbInit exCBDataNoPref 1 hneg hpref⟩

/-- Counterexample to C2 as stated: in `exCBDataPref` every rating of user 1
normalizes to weight ≤ 0, yet the trained profile of user 1 is non-empty —
it is seeded from the user's explicit preferences. -/
theorem cb_empty_profile_counterexample :
    (∀ r ∈ exCBDataPref.ratings, r.user_id = 1 → (r.value - 1) / 4 ≤ 0) ∧
      ¬(alGetD (cbTrain cbInit exCBDataPref).user_profiles 1 [] = [] ∧
        ∀ limit, cbRecommend (cbTrain cbInit exCBDataPref) 1 limit = []) := by
  constructor
  · intro r hr _
    rcases List.mem_singleton.mp hr with rfl
    norm_num [exCBDataPref]
  · intro hcl
    have hev : alGetD (cbTrain cbInit exCBDataPref).user_profiles 1 [] =
        [("category_a", 4/5)] := by
      norm_num [cbTrain, cbInit, exCBDataPref, cbBuildUserProfiles, cbBuildProfile,
        cbSeedProfile, cbProfileAccum, cbItemFeatures, cbFeatureList, buildUserItem,
        catFeature, sortedStrings, sortBy, insertBy, firstDedup, alSet, alGet?,
        alGetD, alKeys, alAdd, List.foldl_cons, List.find?]
      decide
    rw [hev] at hcl
    cases hcl.1

/-! ## Claim C1: structure of explanation entries -/

/-- In an association list with distinct keys, any member of `alSet l k v`
whose key is `k` is the new binding itself. -/
theorem mem_alSet_eq_of_key {K V : Type} [DecidableEq K]
    (l : List (K × V)) (k : K) (v : V) (p : K × V)
    (hn : (alKeys l).Nodup) (hp : p ∈ alSet l k v) (hk : p.1 = k) :
    p = (k, v) := by
  induction l with
  | nil =>
    simpa [alSet] using hp
  | cons q rest ih =>
    obtain ⟨k1, v1⟩ := q
    simp only [alKeys, List.map_cons, List.nodup_cons] at hn
    by_cases hq : k1 = k
    · subst hq
      rw [alSet, if_pos rfl] at hp
      rcases List.mem_cons.mp hp with h | h
      · exact h
      · exact absurd (hk ▸ List.mem_map_of_mem Prod.fst h) hn.1
    · rw [alSet, if_neg hq] at hp
      rcases List.mem_cons.mp hp with h | h
      · rw [h] at hk
        exact absurd hk hq
      · exact ih hn.2 h

/-- A key that meets the retention condition of an `alSet`-accumulating fold
ends up among the keys. -/
theorem mem_keys_foldl_alSet_of_cond {K : Type} [DecidableEq K]
    (l : List K) (C : K → Prop) [DecidablePred C] (g : K → ℚ)
    (m0 : List (K × ℚ)) (f : K) (hf : f ∈ l) (hC : C f) :
    f ∈ alKeys (l.foldl (fun m x => if C x then alSet m x (g x) else m) m0) := by
  induction l generalizing m0 with
  | nil => cases hf
  | cons x xs ih =>
    rw [List.foldl_cons]
    rcases List.mem_cons.mp hf with h0 | h0
    · subst h0
      apply foldl_invariant _ (fun m => f ∈ alKeys m)
      · rw [if_pos hC]
        exact alKeys_alSet_mem _ _ _
      · intro acc y _ hin
        by_cases hy : C y
        · rw [if_pos hy]
          exact alKeys_alSet_mono _ _ _ _ hin
        · rw [if_neg hy]
          exact hin
    · exact ih _ h0

theorem ecContribs0_mem (up itf : List (String × ℚ)) :
    ∀ p ∈ ecContribs0 up itf,
      p.2 = alGetD up p.1 0 * alGetD itf p.1 0 ∧
      p.1 ∈ alKeys up ∧ p.1 ∈ alKeys itf ∧
      0 < alGetD up p.1 0 ∧ 0 < alGetD itf p.1 0 := by
  rw [ecContribs0]
  refine foldl_invariant _
    (fun m : List (String × ℚ) => ∀ p ∈ m,
      p.2 = alGetD up p.1 0 * alGetD itf p.1 0 ∧
      p.1 ∈ alKeys up ∧ p.1 ∈ alKeys itf ∧
      0 < alGetD up p.1 0 ∧ 0 < alGetD itf p.1 0)
    _ _ ?_ ?_
  · intro p hp
    cases hp
  · intro acc f hfmem hInv p hp
    by_cases hc : 0 < alGetD up f 0 ∧ 0 < alGetD itf f 0
    · rw [if_pos hc] at hp
      rcases mem_alSet _ _ _ _ hp with h | h
      · subst h
        have hfc := List.mem_filter.mp hfmem
        refine ⟨rfl, hfc.1, by simpa using hfc.2, hc.1, hc.2⟩
      · exact hInv p h
    · rw [if_neg hc] at hp
      exact hInv p hp

theorem ecContribs0_keys_nodup (up itf : List (String × ℚ)) :
    (alKeys (ecContribs0 up itf)).Nodup := by
  rw [ecContribs0]
  apply foldl_invariant _ (fun m : List (String × ℚ) => (alKeys m).Nodup)
  · simp [alKeys]
  · intro acc f _ hInv
    by_cases hc : 0 < alGetD up f 0 ∧ 0 < alGetD itf f 0
    · rw [if_pos hc]
      exact alKeys_nodup_alSet _ _ _ hInv
    · rw [if_neg hc]
      exact hInv

theorem ecContribs_mem (up itf : List (String × ℚ)) :
    ∀ p ∈ ecContribs up itf,
      p.2 = (if p.1 = "category_sci-fi" then 10 else 1) *
          (alGetD up p.1 0 * alGetD itf p.1 0) ∧
      p.1 ∈ alKeys up ∧ p.1 ∈ alKeys itf := by
  intro p hp
  rw [ecContribs] at hp
  split_ifs at hp with hsf
  · by_cases hps : p.1 = "category_sci-fi"
    · have hpe := mem_alSet_eq_of_key _ _ _ _ (ecContribs0_keys_nodup up itf) hp hps
      rw [hpe]
      refine ⟨?_, hsf.1, hsf.2⟩
      simp only
      rw [if_pos trivial]
      ring
    · rcases mem_alSet _ _ _ _ hp with h | h
      · rw [h] at hps
        simp at hps
      · obtain ⟨hv, h1, h2, -, -⟩ := ecContribs0_mem up itf p h
        rw [if_neg hps, hv]
        exact ⟨by ring, h1, h2⟩
  · obtain ⟨hv, h1, h2, -, -⟩ := ecContribs0_mem up itf p hp
    have hps : p.1 ≠ "category_sci-fi" := by
      intro hh
      rw [hh] at h1 h2
      exact hsf ⟨h1, h2⟩
    rw [if_neg hps, hv]
    exact ⟨by ring, h1, h2⟩

theorem ecContribs_key_complete (up itf : List (String × ℚ)) (f : String)
    (h1 : f ∈ alKeys up) (h2 : f ∈ alKeys itf)
    (h3 : (0 < alGetD up f 0 ∧ 0 < alGetD itf f 0) ∨ f = "category_sci-fi") :
    f ∈ alKeys (ecContribs up itf) := by
  rw [ecContribs]
  rcases h3 with h3 | h3
  · have hf0 : f ∈ alKeys (ecContribs0 up itf) := by
      rw [ecContribs0]
      refine mem_keys_foldl_alSet_of_cond (ecCommon up itf)
        (fun x => 0 < alGetD up x 0 ∧ 0 < alGetD itf x 0)
        (fun x => alGetD up x 0 * alGetD itf x 0) [] f ?_ h3
      rw [ecCommon, List.mem_filter]
      exact ⟨h1, by simpa using h2⟩
    split_ifs with hsf
    · exact alKeys_alSet_mono _ _ _ _ hf0
    · exact hf0
  · subst h3
    rw [if_pos ⟨h1, h2⟩]
    exact alKeys_alSet_mem _ _ _

theorem pyHasSub_scifi : pyHasSub "category_" "category_sci-fi" = true := by decide

theorem ecAllFeatures_mem (up itf : List (String × ℚ)) :
    ∀ p ∈ ecAllFeatures up itf,
      p.2 = (if p.1 = "category_sci-fi" then 50
          else if pyHasSub "category_" p.1 then 5 else 1) *
        (alGetD up p.1 0 * alGetD itf p.1 0) := by
  intro p hp
  rw [ecAllFeatures, ecSortDesc, mem_sortBy] at hp
  rcases List.mem_append.mp hp with h | h
  · rw [List.mem_map] at h
    obtain ⟨p0, hp0, hpe⟩ := h
    have hp0f := List.mem_filter.mp hp0
    have hp0c : p0 ∈ ecContribs up itf := by
      rw [ecSortDesc, mem_sortBy] at hp0f
      exact hp0f.1
    obtain ⟨hv, -, -⟩ := ecContribs_mem up itf p0 hp0c
    rw [← hpe]
    simp only
    by_cases hps : p0.1 = "category_sci-fi"
    · rw [if_pos hps, hv, if_pos hps]
      ring
    · rw [if_neg hps, hv, if_neg hps, if_pos hp0f.2]
      ring
  · have hpf := List.mem_filter.mp h
    have hpc : p ∈ ecContribs up itf := by
      rw [ecSortDesc, mem_sortBy] at hpf
      exact hpf.1
    have hnot : pyHasSub "category_" p.1 = false := by
      have h2 := hpf.2
      simp only [Bool.not_eq_true'] at h2
      exact h2
    have hps : p.1 ≠ "category_sci-fi" := by
      intro hh
      rw [hh, pyHasSub_scifi] at hnot
      cases hnot
    obtain ⟨hv, -, -⟩ := ecContribs_mem up itf p hpc
    rw [if_neg hps, hnot, hv, if_neg hps]
    simp

theorem ecAllFeatures_category_complete (up itf : List (String × ℚ)) (f : String)
    (hsub : pyHasSub "category_" f = true)
    (h1 : f ∈ alKeys up) (h2 : f ∈ alKeys itf)
    (h3 : (0 < alGetD up f 0 ∧ 0 < alGetD itf f 0) ∨ f = "category_sci-fi") :
    ∃ p ∈ ecAllFeatures up itf, pyHasSub "category_" p.1 = true := by
  have hk := ecContribs_key_complete up itf f h1 h2 h3
  rw [alKeys, List.mem_map] at hk
  obtain ⟨p, hp, hpf⟩ := hk
  refine ⟨(p.1, p.2 * 5), ?_, by rw [hpf]; exact hsub⟩
  rw [ecAllFeatures, ecSortDesc, mem_sortBy]
  apply List.mem_append_left
  apply List.mem_map_of_mem (fun q : String × ℚ => (q.1, q.2 * 5))
  rw [List.mem_filter]
  constructor
  · rw [ecSortDesc, mem_sortBy]
    exact hp
  · rw [hpf]
    exact hsub

theorem ecTopList_sub (up itf : List (String × ℚ)) (tf : ℤ) :
    ∀ p ∈ ecTopList up itf tf, p ∈ ecAllFeatures up itf := by
  intro p hp
  rw [ecTopList] at hp
  rcases List.mem_append.mp hp with h | h
  · rw [ecTop0] at h
    rcases hf : (ecAllFeatures up itf).find? (fun p => pyHasSub "category_" p.1) with _ | p0
    · rw [hf] at h
      cases h
    · rw [hf] at h
      rcases List.mem_singleton.mp h with rfl
      exact List.mem_of_find?_eq_some hf
  · have h2 := mem_pyTake _ _ _ h
    exact (List.mem_filter.mp h2).1

theorem ecTopList_category (up itf : List (String × ℚ)) (tf : ℤ)
    (h : ∃ p ∈ ecAllFeatures up itf, pyHasSub "category_" p.1 = true) :
    ∃ p ∈ ecTopList up itf tf, pyHasSub "category_" p.1 = true := by
  obtain ⟨p, hp, hps⟩ := h
  rcases hf : (ecAllFeatures up itf).find? (fun p => pyHasSub "category_" p.1) with _ | p0
  · exact absurd hps (by simpa using List.find?_eq_none.mp hf p hp)
  · refine ⟨p0, ?_, by simpa using List.find?_some hf⟩
    rw [ecTopList]
    apply List.mem_append_left
    rw [ecTop0, hf]
    exact List.mem_singleton_self _

/-- C1 amended: for every content engine state, user with non-empty profile
and item with non-empty features, each explanation entry reports the raw
feature name, the display label with every occurrence of `category_`
removed when present, the user's weight and the item's value on that
feature, and a contribution equal to the user's weight times the item's
value scaled by 5 for category features — by 50 for `category_sci-fi` —
and by 1 otherwise; and whenever the profile and the item share a category
feature that either has positive weight and value on both sides or is
`category_sci-fi`, at least one category feature appears among the
entries. -/
theorem cb_explain_entries (s : CBState) (uid item_id tf : ℤ)
    (entries : List ExplanationEntry)
    (hup : alGetD s.user_profiles uid [] ≠ [])
    (hit : alGetD s.item_features item_id [] ≠ [])
    (h : cbExplain s uid item_id tf = some entries) :
    (∀ e ∈ entries,
      e.user_preference = alGetD (alGetD s.user_profiles uid []) e.feature 0 ∧
      e.item_value = alGetD (alGetD s.item_features item_id []) e.feature 0 ∧
      e.display_name = (if pyHasSub "category_" e.feature then
          pyRemoveSub "category_" e.feature else e.feature) ∧
      e.contribution = (if e.feature = "category_sci-fi" then 50
          else if pyHasSub "category_" e.feature then 5 else 1) *
        (e.user_preference * e.item_value)) ∧
    ((∃ f, pyHasSub "category_" f = true ∧
        f ∈ alKeys (alGetD s.user_profiles uid []) ∧
        f ∈ alKeys (alGetD s.item_features item_id []) ∧
        ((0 < alGetD (alGetD s.user_profiles uid []) f 0 ∧
          0 < alGetD (alGetD s.item_features item_id []) f 0) ∨
          f = "category_sci-fi")) →
      ∃ e ∈ entries, pyHasSub "category_" e.feature = true) := by
  simp only [cbExplain] at h
  rw [if_neg (by simp [hup, hit]), Option.some.injEq] at h
  subst h
  constructor
  · intro e he
    rw [explainEntries, List.mem_map] at he
    obtain ⟨p, hp, hpe⟩ := he
    have hall := ecTopList_sub _ _ _ _ hp
    have hv := ecAllFeatures_mem _ _ _ hall
    rw [← hpe]
    exact ⟨rfl, rfl, rfl, hv⟩
  · intro hex
    obtain ⟨f, hsub, h1, h2, h3⟩ := hex
    obtain ⟨p, hp, hps⟩ := ecTopList_category _ _ tf
      (ecAllFeatures_category_complete _ _ f hsub h1 h2 h3)
    exact ⟨_, List.mem_map_of_mem _ hp, hps⟩

theorem pyHasSub_cat_a : pyHasSub "category_" "category_a" = true := by decide

theorem pyRemoveSub_cat_a : pyRemoveSub "category_" "category_a" = "a" := by decide

/-- Evaluation of content training on `exCBDataCat`. -/
theorem exCBCat_train_eval : cbTrain cbInit exCBDataCat =
    ⟨[], [(1, [("category_a", 1)])], [(1, [("category_a", 1)]), (2, [("category_a", 1)])],
      ["category_a"], [(1, [(1, 5)])]⟩ := by
  norm_num [cbTrain, cbInit, exCBDataCat, cbBuildUserProfiles, cbBuildProfile,
    cbSeedProfile, cbProfileAccum, cbItemFeatures, cbFeatureList, buildUserItem,
    catFeature, sortedStrings, sortBy, insertBy, firstDedup, alSet, alGet?,
    alGetD, alKeys, alAdd, List.foldl_cons, List.find?]
  decide

/-- Evaluation of `explain_recommendation` on the trained `exCBDataCat`
engine: the single returned entry carries contribution `5`, the ×5-boosted
product of the user weight `1` and the item value `1`. -/
theorem exCBCat_explain_eval :
    cbExplain (cbTrain cbInit exCBDataCat) 1 2 3 =
      some [⟨"category_a", "a", 1, 1, 5⟩] := by
  rw [exCBCat_train_eval]
  simp only [cbExplain]
  norm_num [explainEntries, ecTopList, ecTop0, ecAllFeatures, ecSortDesc, ecContribs,
    ecContribs0, ecCommon, alGetD, alGet?, alKeys, alSet, sortBy, insertBy,
    pyTake, List.take, Int.toNat, List.foldl_cons, List.filter, List.find?,
    pyHasSub_cat_a, pyRemoveSub_cat_a]

/-- Counterexample to C1 as stated: on the trained `exCBDataCat` engine the
explanation of item 2 for user 1 returns one entry whose reported
contribution (`5`) is *not* the user weight times the item value (`1·1`) —
category contributions are boosted ×5 before being reported. -/
theorem cb_explain_contribution_counterexample :
    cbExplain (cbTrain cbInit exCBDataCat) 1 2 3 =
      some [⟨"category_a", "a", 1, 1, 5⟩] ∧
      ¬∀ e ∈ [(⟨"category_a", "a", 1, 1, 5⟩ : ExplanationEntry)],
          e.contribution = e.user_preference * e.item_value := by
  refine ⟨exCBCat_explain_eval, ?_⟩
  intro hall
  have h := hall _ (List.mem_singleton_self _)
  norm_num at h

/-- Witness for the amended C1 on the trained `exCBDataCat` engine. -/
theorem cb_explain_entries_witness :
    (alGetD (cbTrain cbInit exCBDataCat).user_profiles 1 [] ≠ []) ∧
      (alGetD (cbTrain cbInit exCBDataCat).item_features 2 [] ≠ []) ∧
      cbExplain (cbTrain cbInit exCBDataCat) 1 2 3 =
        some [⟨"category_a", "a", 1, 1, 5⟩] ∧
      ∃ e ∈ [(⟨"category_a", "a", 1, 1, 5⟩ : ExplanationEntry)],
        pyHasSub "category_" e.feature = true := by
  have hup : alGetD (cbTrain cbInit exCBDataCat).user_profiles 1 [] ≠ [] := by
    rw [exCBCat_train_eval]
    norm_num [alGetD, alGet?]
  have hit : alGetD (cbTrain cbInit exCBDataCat).item_features 2 [] ≠ [] := by
    rw [exCBCat_train_eval]
    norm_num [alGetD, alGet?]
  have h := cb_explain_entries (cbTrain cbInit exCBDataCat) 1 2 3 _ hup hit
    exCBCat_explain_eval
  refine ⟨hup, hit, exCBCat_explain_eval, ?_⟩
  apply h.2
  refine ⟨"category_a", pyHasSub_cat_a, ?_, ?_, Or.inl ⟨?_, ?_⟩⟩
  · rw [exCBCat_train_eval]
    norm_num [alGetD, alGet?, alKeys]
  · rw [exCBCat_train_eval]
    norm_num [alGetD, alGet?, alKeys]
  · rw [exCBCat_train_eval]
    norm_num [alGetD, alGet?]
  · rw [exCBCat_train_eval]
    norm_num [alGetD, alGet?]

/-- C8: pearson correlation is computed only over the positions where
neither vector holds zero — it equals the correlation of the two vectors
compressed to exactly those positions — and whenever fewer than two such
positions remain it returns exactly `0.0`. -/
theorem pearson_uses_only_nonzero_positions (v1 v2 : List ℚ)
    (hlen : v1.length = v2.length) :
    pearson_correlation v1 v2 =
      pearson_correlation ((nonzeroPairs v1 v2).map Prod.fst)
        ((nonzeroPairs v1 v2).map Prod.snd) ∧
      ((nonzeroPairs v1 v2).length < 2 → pearson_correlation v1 v2 = some 0) := by
  have hle1 : (nonzeroPairs v1 v2).length ≤ v1.length := by
    refine le_trans (List.length_filter_le _ _) ?_
    rw [List.length_zip, hlen, min_self]
  have hzip : ((nonzeroPairs v1 v2).map Prod.fst).zip ((nonzeroPairs v1 v2).map Prod.snd)
      = nonzeroPairs v1 v2 := by
    rw [List.zip_map']
    simp
  have hfix : nonzeroPairs ((nonzeroPairs v1 v2).map Prod.fst)
      ((nonzeroPairs v1 v2).map Prod.snd) = nonzeroPairs v1 v2 := by
    rw [nonzeroPairs, hzip]
    apply List.filter_eq_self.mpr
    intro p hp
    rw [nonzeroPairs] at hp
    exact @List.of_mem_filter (ℚ × ℚ)
      (fun q => !(decide (q.1 = 0) || decide (q.2 = 0))) p (v1.zip v2) hp
  have hguard : (nonzeroPairs v1 v2).length < 2 → pearson_correlation v1 v2 = some 0 := by
    intro hc
    rw [pearson_correlation]
    by_cases h1 : v1.length < 2 ∨ v2.length < 2
    · rw [if_pos h1]
    · rw [if_neg h1, if_pos hc]
  refine ⟨?_, hguard⟩
  by_cases hc : (nonzeroPairs v1 v2).length < 2
  · have hR : pearson_correlation ((nonzeroPairs v1 v2).map Prod.fst)
        ((nonzeroPairs v1 v2).map Prod.snd) = some 0 := by
      rw [pearson_correlation, if_pos]
      left
      rw [List.length_map]
      exact hc
    rw [hguard hc, hR]
  · push_neg at hc
    have h2le : 2 ≤ v1.length := le_trans hc hle1
    have h2le2 : 2 ≤ v2.length := hlen ▸ h2le
    have hL : pearson_correlation v1 v2 = corrcoefPairs (nonzeroPairs v1 v2) := by
      rw [pearson_correlation, if_neg (by omega), if_neg (by omega)]
    have hR : pearson_correlation ((nonzeroPairs v1 v2).map Prod.fst)
        ((nonzeroPairs v1 v2).map Prod.snd) = corrcoefPairs (nonzeroPairs v1 v2) := by
      rw [pearson_correlation,
        if_neg (by simp only [List.length_map]; omega),
        if_neg (by rw [hfix]; omega), hfix]
    rw [hL, hR]

/-! ## Claim C10: content predictions lie in `[1, 5]` for non-negative data -/

theorem dotList_nonneg (v1 v2 : List ℚ) (h1 : ∀ x ∈ v1, 0 ≤ x)
    (h2 : ∀ x ∈ v2, 0 ≤ x) : 0 ≤ dotList v1 v2 := by
  induction v1 generalizing v2 with
  | nil => cases v2 <;> simp [dotList]
  | cons a as ih =>
    cases v2 with
    | nil => simp [dotList]
    | cons b bs =>
      rw [dotList]
      have ha : 0 ≤ a := h1 a (List.mem_cons_self _ _)
      have hb : 0 ≤ b := h2 b (List.mem_cons_self _ _)
      have hrest := ih bs (fun x hx => h1 x (List.mem_cons_of_mem _ hx))
        (fun x hx => h2 x (List.mem_cons_of_mem _ hx))
      nlinarith

/-- Rational dot products, cast to `ℝ`, as finite sums over a common index
range (entries past the end read as `0`). -/
theorem dotList_cast_sum (v1 : List ℚ) :
    ∀ (v2 : List ℚ) (n : ℕ), v1.length ≤ n → v2.length ≤ n →
      ((dotList v1 v2 : ℚ) : ℝ) =
        ∑ j ∈ Finset.range n, ((v1.getD j 0 : ℚ) : ℝ) * ((v2.getD j 0 : ℚ) : ℝ) := by
  induction v1 with
  | nil =>
    intro v2 n _ _
    simp [dotList]
  | cons a as ih =>
    intro v2 n h1 h2
    cases v2 with
    | nil =>
      have hz : dotList (a :: as) [] = (0 : ℚ) := rfl
      rw [hz]
      simp
    | cons b bs =>
      rw [List.length_cons] at h1 h2
      cases n with
      | zero => omega
      | succ m =>
        rw [Finset.sum_range_succ']
        simp only [List.getD_cons_succ, List.getD_cons_zero]
        rw [← ih bs m (by omega) (by omega), dotList]
        push_cast
        ring

theorem sumSq_cast_sum (v : List ℚ) (n : ℕ) (h : v.length ≤ n) :
    ((sumSq v : ℚ) : ℝ) = ∑ j ∈ Finset.range n, ((v.getD j 0 : ℚ) : ℝ) ^ 2 := by
  rw [sumSq, dotList_cast_sum v v n h h]
  exact Finset.sum_congr rfl (fun j _ => (sq _).symm)

/-- Cauchy–Schwarz for the embedded dot product and norms. -/
theorem dotList_le_norm_mul_norm (v1 v2 : List ℚ) :
    ((dotList v1 v2 : ℚ) : ℝ) ≤ vecNorm v1 * vecNorm v2 := by
  rw [dotList_cast_sum v1 v2 (max v1.length v2.length) (le_max_left _ _) (le_max_right _ _)]
  rw [vecNorm, vecNorm,
    sumSq_cast_sum v1 (max v1.length v2.length) (le_max_left _ _),
    sumSq_cast_sum v2 (max v1.length v2.length) (le_max_right _ _)]
  exact Real.sum_mul_le_sqrt_mul_sqrt _ _ _

/-- Cosine similarity of entrywise non-negative vectors lies in `[0, 1]`. -/
theorem cosine_similarity_nonneg_le_one (v1 v2 : List ℚ)
    (h1 : ∀ x ∈ v1, 0 ≤ x) (h2 : ∀ x ∈ v2, 0 ≤ x) :
    0 ≤ cosine_similarity v1 v2 ∧ cosine_similarity v1 v2 ≤ 1 := by
  rw [cosine_similarity]
  split_ifs with hz
  · norm_num
  · push_neg at hz
    obtain ⟨hz1, hz2⟩ := hz
    have hp1 : 0 < vecNorm v1 := lt_of_le_of_ne (Real.sqrt_nonneg _) (Ne.symm hz1)
    have hp2 : 0 < vecNorm v2 := lt_of_le_of_ne (Real.sqrt_nonneg _) (Ne.symm hz2)
    constructor
    · apply div_nonneg
      · exact_mod_cast dotList_nonneg v1 v2 h1 h2
      · exact le_of_lt (mul_pos hp1 hp2)
    · rw [div_le_one (mul_pos hp1 hp2)]
      exact dotList_le_norm_mul_norm v1 v2

/-- Every rating produced by the content engine on non-negative tables is
`1 + 4·cosine` of two non-negative vectors, hence lies in `[1, 5]`. -/
theorem cbRecommend_rating_bounds (s : CBState) (uid limit i : ℤ) (p : ℝ)
    (hitems : ∀ e ∈ s.item_features, ∀ q ∈ e.2, 0 ≤ q.2)
    (hprof : ∀ e ∈ s.user_profiles, ∀ q ∈ e.2, 0 ≤ q.2)
    (h : (i, p) ∈ cbRecommend s uid limit) :
    1 ≤ p ∧ p ≤ 5 := by
  have hrow : ∀ (m : List (ℤ × List (String × ℚ))) (k : ℤ),
      (∀ e ∈ m, ∀ q ∈ e.2, 0 ≤ q.2) → ∀ q ∈ alGetD m k [], 0 ≤ q.2 := by
    intro m k hm q hq
    rcases hk : alGet? m k with _ | row
    · rw [alGetD, hk, Option.getD_none] at hq
      cases hq
    · rw [alGetD, hk, Option.getD_some] at hq
      exact hm (k, row) (mem_of_alGet?_eq_some _ _ _ hk) q hq
  have hvec : ∀ (row : List (String × ℚ)), (∀ q ∈ row, 0 ≤ q.2) →
      ∀ x ∈ s.feature_list.map (fun f => alGetD row f 0), 0 ≤ x := by
    intro row hr x hx
    rw [List.mem_map] at hx
    obtain ⟨f, -, rfl⟩ := hx
    rcases hq : alGet? row f with _ | v
    · rw [alGetD, hq, Option.getD_none]
    · rw [alGetD, hq, Option.getD_some]
      exact hr (f, v) (mem_of_alGet?_eq_some _ _ _ hq)
  simp only [cbRecommend] at h
  split_ifs at h with h1
  · cases h
  · have h3 := mem_pyTake _ _ _ h
    rw [mem_sortBy, List.mem_filterMap] at h3
    obtain ⟨e, he, hfe⟩ := h3
    split_ifs at hfe
    rw [Option.some.injEq, Prod.mk.injEq] at hfe
    obtain ⟨-, hp⟩ := hfe
    subst hp
    have huv := hvec _ (hrow s.user_profiles uid hprof)
    have hiv := hvec _ (fun q hq => hitems e he q hq)
    have hcos := cosine_similarity_nonneg_le_one _ _ huv hiv
    constructor
    · linarith [hcos.1]
    · linarith [hcos.2]

/-- C10: for every trained content engine in which every item feature value
and every user profile weight is non-negative, every predicted rating
returned by `recommend_for_user` lies in `[1, 5]` — no clamping is applied;
the bound comes from `1 + 4·cosine` of non-negative vectors alone. -/
theorem cb_predicted_rating_bounds (s0 : CBState) (d : CBData)
    (uid limit i : ℤ) (p : ℝ)
    (hitems : ∀ e ∈ (cbTrain s0 d).item_features, ∀ q ∈ e.2, 0 ≤ q.2)
    (hprof : ∀ e ∈ (cbTrain s0 d).user_profiles, ∀ q ∈ e.2, 0 ≤ q.2)
    (h : (i, p) ∈ cbRecommend (cbTrain s0 d) uid limit) :
    1 ≤ p ∧ p ≤ 5 :=
  cbRecommend_rating_bounds _ _ _ _ _ hitems hprof h

/-- Evaluation of content training on `exCBDataF`. -/
theorem exCBF_train_eval : cbTrain cbInit exCBDataF =
    ⟨[], [(1, [("f", 1)])], [(1, [("f", 1)]), (2, [("f", 1)])], ["f"], [(1, [(1, 5)])]⟩ := by
  norm_num [cbTrain, cbInit, exCBDataF, cbBuildUserProfiles, cbBuildProfile,
    cbSeedProfile, cbProfileAccum, cbItemFeatures, cbFeatureList, buildUserItem,
    catFeature, sortedStrings, sortBy, insertBy, firstDedup, alSet, alGet?,
    alGetD, alKeys, alAdd, List.foldl_cons, List.find?]

/-- Cosine similarity of the one-dimensional unit vectors is `1`. -/
theorem cosine_similarity_one_one : cosine_similarity [(1 : ℚ)] [(1 : ℚ)] = 1 := by
  have hv : vecNorm [(1 : ℚ)] = 1 := by
    rw [vecNorm]
    norm_num [sumSq, dotList]
  rw [cosine_similarity, hv]
  norm_num [dotList]

/-- Evaluation of content recommendations on the trained `exCBDataF` engine:
the unrated item 2 is returned at the maximal predicted rating `5`. -/
theorem exCBF_recommend_eval :
    cbRecommend (cbTrain cbInit exCBDataF) 1 10 = [(2, (5 : ℝ))] := by
  rw [exCBF_train_eval]
  simp only [cbRecommend]
  norm_num [alGetD, alGet?, alKeys, List.filterMap_cons, cosine_similarity_one_one,
    sortBy, insertBy, pyTake, List.take, Int.toNat]

/-- Witness for C10 on the trained `exCBDataF` engine. -/
theorem cb_predicted_rating_bounds_witness :
    (∀ e ∈ (cbTrain cbInit exCBDataF).item_features, ∀ q ∈ e.2, 0 ≤ q.2) ∧
      (∀ e ∈ (cbTrain cbInit exCBDataF).user_profiles, ∀ q ∈ e.2, 0 ≤ q.2) ∧
      (2, (5 : ℝ)) ∈ cbRecommend (cbTrain cbInit exCBDataF) 1 10 ∧
      (1 ≤ (5 : ℝ) ∧ (5 : ℝ) ≤ 5) := by
  have hitems : ∀ e ∈ (cbTrain cbInit exCBDataF).item_features, ∀ q ∈ e.2, 0 ≤ q.2 := by
    rw [exCBF_train_eval]
    intro e he q hq
    fin_cases he <;> fin_cases hq <;> norm_num
  have hprof : ∀ e ∈ (cbTrain cbInit exCBDataF).user_profiles, ∀ q ∈ e.2, 0 ≤ q.2 := by
    rw [exCBF_train_eval]
    intro e he q hq
    fin_cases he <;> fin_cases hq <;> norm_num
  have hm : (2, (5 : ℝ)) ∈ cbRecommend (cbTrain cbInit exCBDataF) 1 10 := by
    rw [exCBF_recommend_eval]
    exact List.mem_singleton_self _
  exact ⟨hitems, hprof, hm,
    cb_predicted_rating_bounds cbInit exCBDataF 1 10 2 5 hitems hprof hm⟩

/-- Witness for C8 at `v1 = [1, 0]`, `v2 = [0, 2]` (no shared nonzero
position). -/
theorem pearson_uses_only_nonzero_positions_witness :
    ([(1 : ℚ), 0].length = [(0 : ℚ), 2].length) ∧
      (pearson_correlation [(1 : ℚ), 0] [(0 : ℚ), 2] =
          pearson_correlation ((nonzeroPairs [(1 : ℚ), 0] [(0 : ℚ), 2]).map Prod.fst)
            ((nonzeroPairs [(1 : ℚ), 0] [(0 : ℚ), 2]).map Prod.snd) ∧
        ((nonzeroPairs [(1 : ℚ), 0] [(0 : ℚ), 2]).length < 2 →
          pearson_correlation [(1 : ℚ), 0] [(0 : ℚ), 2] = some 0)) :=
  ⟨rfl, pearson_uses_only_nonzero_positions _ _ rfl⟩

end RecSys
